import Mathlib

/-! StateQ simulator backend: bytecode decoder, dispatcher and execution driver; runtime
library and compiler interface.

A shallow embedding of `src/simulator/src/bytecode.cpp`, `instruction.cpp` and
`qivm.cpp`, of the integer and bitset functions of
`src/library/c_cpp/src/stateq/runtime.c` and of `get_entry_from_list` of
`src/compiler/src/main/native/stateq_compiler.h`, followed by theorems about it.
-/

namespace StateQ

/-! ## Bytecode decoder (`bytecode.cpp`) -/

/-- One element of `ByteVec = std::vector<uint8_t>`. -/
abbrev Byte := Fin 256

/-- Modelled from the spec: the enumeration `StandardGate` is declared in
`instruction.hpp`, which is not among the sources. Its enumerators are the identifiers
of "the fixed catalogue {`I, H, X, Y, Z, XPOW, YPOW, ZPOW, S, SD, T, TD, V, VD, P, RX, RY,
RZ, RN, U, CX, CY, CZ, CH, CP, SWP, SSWP, SSWPD, ISWP, ISWPD, SISWP, SISWPD, CAN, CCX,
CSWP`}", twenty of which label a `case` of `StandardGateInstruction::execute`. -/
inductive StandardGate
  | I | H | X | Y | Z | XPOW | YPOW | ZPOW | S | SD | T | TD | V | VD | P | RX | RY | RZ | RN | U
  | CX | CY | CZ | CH | CP | SWP | SSWP | SSWPD | ISWP | ISWPD | SISWP | SISWPD | CAN | CCX | CSWP
  deriving DecidableEq, Repr

/-- The declarations of `instruction.hpp` that the decoder and the dispatcher depend on
but that are not part of the sources: `sizeof(StandardGate)`, `sizeof(QubitAddr)` and
the numeric value of each `StandardGate` enumerator (`gateOfId v = none` when `v` is
the value of no enumerator). They are parameters of the model. -/
structure Layout where
  gateWidth : Nat
  addrWidth : Nat
  gateOfId : Nat → Option StandardGate

/-- Modelled from the spec: the enumeration `PrimitiveOpCode` is declared in
`instruction.hpp`, which is not among the sources. "One byte opcode ∈ {0 = `Alloc`,
1 = `Reset`, 2 = `Measure`}"; these are the three enumerators `executeOnce` names. -/
inductive PrimitiveOpCode
  | Alloc | Reset | Measure
  deriving DecidableEq, Repr

/-- Modelled from the spec: the enumerator of `PrimitiveOpCode` with a given value,
"{0 = `Alloc`, 1 = `Reset`, 2 = `Measure`}"; `none` for a value of no enumerator the
driver names. -/
def PrimitiveOpCode.ofValue : Nat → Option PrimitiveOpCode
  | 0 => some .Alloc
  | 1 => some .Reset
  | 2 => some .Measure
  | _ => none

/-- Modelled from the spec: `sizeof(PrimitiveOpCode)`, "One byte opcode". -/
def opcodeWidth : Nat := 1

/-- Modelled from the spec: `sizeof(InstructionParam)`, a type declared in
`instruction.hpp`; "Parameter cells are always 8 bytes". -/
def paramWidth : Nat := 8

/-- The three `BytecodeParseException`s thrown by `bytecode.cpp`. -/
inductive BytecodeParseException
  /-- Thrown with the message "Unexpected end of bytecode". -/
  | unexpectedEnd
  /-- Thrown with the message "Invalid primitive opcode: " followed by the opcode. -/
  | invalidOpcode (opcode : Nat)
  /-- Thrown with the message "Invalid instruction type: " followed by the tag. -/
  | invalidType (tag : Nat)
  deriving DecidableEq, Repr

/-- A decoded instruction: `PrimitiveInstruction(opcode, params)` or
`StandardGateInstruction(gate, params, target)`. Parameter cells are kept as the raw
64-bit value; the gate is kept as the raw value read from the stream. -/
inductive Instruction
  | primitive (opcode : Nat) (params : List Nat)
  | standard (gate : Nat) (params : List Nat) (targets : List Nat)
  deriving DecidableEq, Repr

/-- A computation over the iterator `iter` of `ByteCode::ByteCode`: it receives the
bytes from `iter` to `bytes.end()` and either throws or returns a value together with
the bytes that remain after `iter` has advanced. -/
def Parser (α : Type) : Type :=
  List Byte → Except BytecodeParseException (α × List Byte)

namespace Parser

/-- Return without touching the iterator. -/
def pure {α : Type} (a : α) : Parser α := fun bs => .ok (a, bs)

/-- Sequencing: an exception of the first computation propagates. -/
def bind {α β : Type} (p : Parser α) (f : α → Parser β) : Parser β := fun bs =>
  match p bs with
  | .error e => .error e
  | .ok (a, rest) => f a rest

/-- The statement `throw BytecodeParseException(...)`. -/
def fail {α : Type} (e : BytecodeParseException) : Parser α := fun _ => .error e

instance : Monad Parser where
  pure := Parser.pure
  bind := Parser.bind

end Parser

/-- The template `next<T>(iterator, end)` for `sizeof(T) = w`: consume `w` bytes,
byte `i` becoming byte `i` of the object representation of the result (so the value
is assembled little-endian), throwing "Unexpected end of bytecode" when the iterator
reaches the end first. -/
def next : Nat → Parser Nat
  | 0 => fun bs => .ok (0, bs)
  | w + 1 => fun bs =>
    match bs with
    | [] => .error .unexpectedEnd
    | b :: rest =>
      match next w rest with
      | .error e => .error e
      | .ok (v, rest') => .ok (b.val + 256 * v, rest')

/-- The loops `for (...; size > 0; size--) params.emplace_back(next<T>(...))` and
`for (i = 0; i < n; i++) v[i] = next<T>(...)`: read `n` cells of width `w` in order. -/
def nextCells (w : Nat) : Nat → Parser (List Nat)
  | 0 => pure []
  | n + 1 => do
    let v ← next w
    let vs ← nextCells w n
    pure (v :: vs)

/-- The body of the `while (iter != bytes.end())` loop: read the instruction-type tag
and the payload it announces. `none` is a `Nop`, which appends nothing to
`instructions`. -/
def decodeStep (L : Layout) : Parser (Option Instruction) := do
  let instrType ← next 1
  match instrType with
  | 0 => pure none
  | 1 =>
    let opcode ← next opcodeWidth
    if opcode > 2 then
      Parser.fail (.invalidOpcode opcode)
    else
      let size ← next 1
      let params ← nextCells paramWidth size
      pure (some (.primitive opcode params))
  | 2 =>
    let gate ← next L.gateWidth
    let numParams ← next 1
    let params ← nextCells paramWidth numParams
    let numTargetQubits ← next 1
    let target ← nextCells L.addrWidth numTargetQubits
    pure (some (.standard gate params target))
  | t => Parser.fail (.invalidType t)

/-- The `while (iter != bytes.end())` loop, with `fuel` bounding the number of
iterations; `none` means the bound was reached before the loop ended. -/
def decodeLoop (L : Layout) : Nat → List Byte → Option (Except BytecodeParseException (List Instruction))
  | _, [] => some (.ok [])
  | 0, _ :: _ => none
  | fuel + 1, b :: bs =>
    match decodeStep L (b :: bs) with
    | .error e => some (.error e)
    | .ok (instr, rest) =>
      match decodeLoop L fuel rest with
      | none => none
      | some (.error e) => some (.error e)
      | some (.ok instrs) => some (.ok (instr.toList ++ instrs))

/-- The constructor `ByteCode::ByteCode(bytes)`: the decoded `instructions`, or the
exception thrown. Every iteration consumes at least one byte, so `bytes.length`
iterations are enough (`decodeLoop_isSome`) and the last branch is never taken. -/
def ByteCode (L : Layout) (bytes : List Byte) : Except BytecodeParseException (List Instruction) :=
  match decodeLoop L bytes.length bytes with
  | some r => r
  | none => .error .unexpectedEnd

/-- A layout used in examples: one-byte gate identifiers numbered in the order of the
`GATES` array, four-byte qubit addresses. -/
def Layout.example : Layout where
  gateWidth := 1
  addrWidth := 4
  gateOfId v :=
    [StandardGate.I, .H, .X, .Y, .Z, .XPOW, .YPOW, .ZPOW, .S, .SD, .T, .TD, .V, .VD, .P,
      .RX, .RY, .RZ, .RN, .U, .CX, .CY, .CZ, .CH, .CP, .SWP, .SSWP, .SSWPD, .ISWP, .ISWPD,
      .SISWP, .SISWPD, .CAN, .CCX, .CSWP].get? v


/-! ## Dispatcher (`instruction.cpp`) -/

/-- The cast `(int) v` of an unsigned value: reduction modulo `2 ^ 32` read as a
two's-complement 32-bit integer. -/
def toInt (v : Nat) : Int :=
  if v % 2 ^ 32 < 2 ^ 31 then (v % 2 ^ 32 : Nat) else (v % 2 ^ 32 : Nat) - 2 ^ 32

/-- The `double` angle passed to a rotation: one of the constants of
`instruction.cpp` or the bits of a parameter cell read as `float64`. -/
inductive Angle
  /-- The constant `-M_PI / 2`. -/
  | negHalfPi
  /-- The constant `-M_PI / 4`. -/
  | negQuarterPi
  /-- The literal `0`. -/
  | zero
  /-- The value `params[i].float64`, identified by the 64 bits of the cell. -/
  | float64 (bits : Nat)
  deriving DecidableEq, Repr

/-- The unitary kernel operations called by the simulator, with their arguments
other than the register. -/
inductive GateCall
  | hadamard (q : Int)
  | pauliX (q : Int)
  | pauliY (q : Int)
  | pauliZ (q : Int)
  | sGate (q : Int)
  | tGate (q : Int)
  | phaseShift (q : Int) (angle : Angle)
  | rotateX (q : Int) (angle : Angle)
  | rotateY (q : Int) (angle : Angle)
  | rotateZ (q : Int) (angle : Angle)
  | controlledNot (c t : Int)
  | controlledPauliY (c t : Int)
  | controlledRotateZ (c t : Int) (angle : Angle)
  | controlledPhaseShift (c t : Int) (angle : Angle)
  | swapGate (a b : Int)
  | sqrtSwapGate (a b : Int)
  | multiControlledMultiQubitNot (ctrls targs : List Int)
  deriving DecidableEq, Repr

/-- The exceptions derived from `QivmBackendException` that are thrown while a
decoded program executes (`exception.hpp`). -/
inductive QivmBackendException
  /-- The exception `QivmBackendException("Qubits are not initialized")`. -/
  | notInitialized
  /-- The exception `QivmBackendException("Unknown primitive instruction")`. -/
  | unknownPrimitive
  | missingOrExtraParameter (gate : StandardGate) (expectedNumParams actualNumParams : Nat)
  | targetSizeNotMatch (gate : StandardGate) (expectedTargetSize actualTargetSize : Nat)
  /-- The exception `UnsupportedGateException`, identified by the raw gate value of the
  instruction. -/
  | unsupportedGate (gate : Nat)
  deriving DecidableEq, Repr

/-- Operations whose behaviour C++ leaves undefined and that the code can reach. -/
inductive Undefined
  /-- The read `instruction.params[0]` on an empty vector. -/
  | paramIndexOutOfRange
  /-- The shift `1 << q` with `q` at least the width of `int`. -/
  | shiftTooWide
  /-- The cast `(int) pow(2, n)` of a value outside the range of `int`. -/
  | powOutOfRange
  /-- Reading an `int` beyond the storage of `targets` through `(int*) targets.data()`. -/
  | targetReadOutOfRange
  /-- The increment `i++` of the `int` counter of the sampling loop at the largest `int`. -/
  | counterOverflow
  deriving DecidableEq, Repr

/-- How the execution of an instruction ends when it does not complete. -/
inductive Abort
  | thrown (e : QivmBackendException)
  | undefined (u : Undefined)
  deriving DecidableEq, Repr

/-- Modelled from the spec: `assertNumParamsAndTargetSize` is declared in
`instruction.hpp`, which is not among the sources. The driver must "verify
`params.size == n_params` and `targets.size == n_targets` (else
`MissingOrExtraParameter` or `TargetSizeNotMatch` with the gate identifier and the
expected/actual numbers)". -/
def assertNumParamsAndTargetSize (gate : StandardGate) (params targets : List Nat)
    (numParams targetSize : Nat) : Except Abort Unit :=
  if params.length ≠ numParams then
    .error (.thrown (.missingOrExtraParameter gate numParams params.length))
  else if targets.length ≠ targetSize then
    .error (.thrown (.targetSizeNotMatch gate targetSize targets.length))
  else
    .ok ()

/-- The read `v[i]` of a vector whose size has just been asserted to exceed `i`. -/
def elemAt (v : List Nat) (i : Nat) : Nat := v.getD i 0

/-- The object representation of an unsigned cell of `w` bytes: byte `i` holds
bits `8 i .. 8 i + 7` of the value. -/
def cellBytes : Nat → Nat → List Byte
  | 0, _ => []
  | w + 1, v => Fin.ofNat (v % 256) :: cellBytes w (v / 256)

/-- The value of an unsigned cell given its object representation. -/
def cellValue : List Byte → Nat
  | [] => 0
  | b :: bs => b.val + 256 * cellValue bs

/-- The read `((int*) targets.data())[i]`: the four bytes at offset `4 i` of the
storage of `targets`, each element of which occupies `addrWidth` bytes. -/
def intAt (L : Layout) (targets : List Nat) (i : Nat) : Except Abort Int :=
  let storage := targets.flatMap (cellBytes L.addrWidth)
  if 4 * i + 4 ≤ storage.length then
    .ok (toInt (cellValue ((storage.drop (4 * i)).take 4)))
  else
    .error (.undefined .targetReadOutOfRange)

/-- The method `StandardGateInstruction::execute`: the kernel calls it makes on the
register, or the way it aborts. The `switch` is on the enumerator whose value the
instruction carries; a value of no enumerator reaches `default`. -/
def execute (L : Layout) (gate : Nat) (params targets : List Nat) : Except Abort (List GateCall) :=
  match L.gateOfId gate with
  | some .I => .ok []
  | some .H => do
    assertNumParamsAndTargetSize .H params targets 0 1
    pure [.hadamard (toInt (elemAt targets 0))]
  | some .X => do
    assertNumParamsAndTargetSize .X params targets 0 1
    pure [.pauliX (toInt (elemAt targets 0))]
  | some .Y => do
    assertNumParamsAndTargetSize .Y params targets 0 1
    pure [.pauliY (toInt (elemAt targets 0))]
  | some .Z => do
    assertNumParamsAndTargetSize .Z params targets 0 1
    pure [.pauliZ (toInt (elemAt targets 0))]
  | some .S => do
    assertNumParamsAndTargetSize .S params targets 0 1
    pure [.sGate (toInt (elemAt targets 0))]
  | some .SD => do
    assertNumParamsAndTargetSize .SD params targets 0 1
    pure [.rotateX (toInt (elemAt targets 0)) .negHalfPi]
  | some .T => do
    assertNumParamsAndTargetSize .T params targets 0 1
    pure [.tGate (toInt (elemAt targets 0))]
  | some .TD => do
    assertNumParamsAndTargetSize .TD params targets 0 1
    pure [.rotateX (toInt (elemAt targets 0)) .negQuarterPi]
  | some .P => do
    assertNumParamsAndTargetSize .P params targets 1 1
    pure [.phaseShift (toInt (elemAt targets 0)) (.float64 (elemAt params 0))]
  | some .RX => do
    assertNumParamsAndTargetSize .RX params targets 1 1
    pure [.rotateX (toInt (elemAt targets 0)) (.float64 (elemAt params 0))]
  | some .RY => do
    assertNumParamsAndTargetSize .RY params targets 1 1
    pure [.rotateY (toInt (elemAt targets 0)) (.float64 (elemAt params 0))]
  | some .RZ => do
    assertNumParamsAndTargetSize .RZ params targets 1 1
    pure [.rotateZ (toInt (elemAt targets 0)) (.float64 (elemAt params 0))]
  | some .CX => do
    assertNumParamsAndTargetSize .CX params targets 0 2
    pure [.controlledNot (toInt (elemAt targets 0)) (toInt (elemAt targets 1))]
  | some .CY => do
    assertNumParamsAndTargetSize .CY params targets 0 2
    pure [.controlledPauliY (toInt (elemAt targets 0)) (toInt (elemAt targets 1))]
  | some .CZ => do
    assertNumParamsAndTargetSize .CZ params targets 0 2
    pure [.controlledRotateZ (toInt (elemAt targets 0)) (toInt (elemAt targets 1)) .zero]
  | some .CP => do
    assertNumParamsAndTargetSize .CP params targets 1 2
    pure [.controlledPhaseShift (toInt (elemAt targets 0)) (toInt (elemAt targets 1))
      (.float64 (elemAt params 0))]
  | some .SWP => do
    assertNumParamsAndTargetSize .SWP params targets 0 2
    pure [.swapGate (toInt (elemAt targets 0)) (toInt (elemAt targets 1))]
  | some .SSWP => do
    assertNumParamsAndTargetSize .SSWP params targets 0 2
    pure [.sqrtSwapGate (toInt (elemAt targets 0)) (toInt (elemAt targets 1))]
  | some .CCX => do
    assertNumParamsAndTargetSize .CCX params targets 0 3
    let c0 ← intAt L targets 0
    let c1 ← intAt L targets 1
    let t ← intAt L targets 2
    pure [.multiControlledMultiQubitNot [c0, c1] [t]]
  | _ => .error (.thrown (.unsupportedGate gate))

/-! ## Execution driver (`qivm.cpp`) -/

/-- A register handle of type `Qureg`: `none` is the value-initialised `Qureg {}` that
no kernel call has produced, `some k` is the register returned by the `createQureg`
call preceded by `k` others. -/
abbrev Qureg := Option Nat

/-- The calls the driver makes on the simulator kernel (QuEST) that create, change,
measure or release a register. -/
inductive KernelCall
  | createQureg (numQubits : Int)
  | initZeroState (qureg : Qureg)
  | measure (qureg : Qureg) (q : Int)
  | gate (qureg : Qureg) (g : GateCall)
  | destroyQureg (qureg : Qureg)
  deriving DecidableEq, Repr

/-- What the driver takes from outside `qivm.cpp`, for a type `P` standing for
`double`: the answers of the kernel, each a function of the calls made so far, the
three `double` computations of the driver, and the permutation `std::shuffle`
applies to `states`. -/
structure Host (P : Type) where
  /-- The value returned by `measure(qubits, q)`. -/
  measure : List KernelCall → Qureg → Int → Int
  /-- The field `qubits.numQubitsRepresented`. -/
  numQubitsRepresented : List KernelCall → Qureg → Nat
  /-- The value returned by `getProbAmp(qubits, state)`. -/
  getProbAmp : List KernelCall → Qureg → Nat → P
  /-- The test `prob > 1e-10`. -/
  aboveThreshold : P → Bool
  /-- The sum computed by `probs[k] += prob`. -/
  add : P → P → P
  /-- The number of iterations of `for (int i = 0; i < round(prob * (1 << 16)); i++)`. -/
  copies : P → Nat
  /-- The result of `std::shuffle(states.begin(), states.end(), rng)`. -/
  shuffle : List Nat → List Nat
  shuffle_perm : ∀ states, (shuffle states).Perm states

/-- The update of a `std::map` at key `k`: `f none` is stored when `k` is absent,
`f (some v)` replaces the value `v` when it is present. Entries stay in ascending
key order, the iteration order of `std::map`. -/
def mapUpdate {V : Type} (f : Option V → V) : List (Nat × V) → Nat → List (Nat × V)
  | [], k => [(k, f none)]
  | (k', v) :: m, k =>
    if k < k' then (k, f none) :: (k', v) :: m
    else if k = k' then (k, f (some v)) :: m
    else (k', v) :: mapUpdate f m k

/-- The local variables of `executeOnce` together with the kernel calls made so far
(oldest first). -/
structure ExecState (P : Type) where
  trace : List KernelCall
  qubits : Qureg
  isInitialized : Bool
  measureQubits : Nat
  probs : List (Nat × P)

/-- The state at the entry of `executeOnce`. -/
def ExecState.init (P : Type) : ExecState P :=
  { trace := [], qubits := none, isInitialized := false, measureQubits := 0, probs := [] }

/-- An aborted execution: the cause and the kernel calls made before it. -/
abbrev Aborted := Abort × List KernelCall

/-- The value of `(1 << q)` converted to `uint64_t`: `1` is an `int`, so the shift is
defined for `q < 32` only, and `1 << 31` is the negative `INT_MIN`, whose conversion
sets bits 31 to 63. -/
def shiftedOne (q : Nat) : Option Nat :=
  if q < 31 then some (2 ^ q)
  else if q = 31 then some (2 ^ 64 - 2 ^ 31)
  else none

/-- The loop `for (qubit : instruction.params) measureQubits |= (1 << qubit.uint64)`. -/
def accumulateMask : Nat → List Nat → Option Nat
  | mask, [] => some mask
  | mask, q :: qs =>
    match shiftedOne q with
    | none => none
    | some bit => accumulateMask (mask ||| bit) qs

/-- The body of the loop over `state` in the `Measure` case, for one basis state. -/
def recordState {P : Type} (H : Host P) (s : ExecState P) (probs : List (Nat × P)) (state : Nat) :
    List (Nat × P) :=
  let prob := H.getProbAmp s.trace s.qubits state
  if H.aboveThreshold prob then
    mapUpdate (fun old => match old with
      | none => prob
      | some v => H.add v prob) probs (state &&& s.measureQubits)
  else probs

/-- The loop of the `Reset` case: measure each listed qubit and flip it when the
outcome is 1. -/
def resetQubits {P : Type} (H : Host P) (qubits : Qureg) : List KernelCall → List Nat → List KernelCall
  | trace, [] => trace
  | trace, q :: qs =>
    let outcome := H.measure trace qubits (toInt q)
    let trace := trace ++ [.measure qubits (toInt q)]
    if outcome = 1 then resetQubits H qubits (trace ++ [.gate qubits (.pauliX (toInt q))]) qs
    else resetQubits H qubits trace qs

/-- The lambda `primitiveInstrExecutor`; the `switch` is on the enumerator whose
value the instruction carries. -/
def primitiveInstrExecutor {P : Type} (H : Host P) (s : ExecState P) (opcode : Nat)
    (params : List Nat) : Except Aborted (ExecState P) :=
  match PrimitiveOpCode.ofValue opcode with
  | some .Alloc =>
    match params with
    | [] => .error (.undefined .paramIndexOutOfRange, s.trace)
    | q :: _ =>
      let handle : Qureg := some (s.trace.countP (fun c => match c with
        | .createQureg _ => true
        | _ => false))
      .ok { s with
        trace := s.trace ++ [.createQureg (toInt q), .initZeroState handle]
        qubits := handle
        isInitialized := true }
  | some .Reset => .ok { s with trace := resetQubits H s.qubits s.trace params }
  | some .Measure =>
    if !s.isInitialized then .error (.thrown .notInitialized, s.trace)
    else
      match accumulateMask s.measureQubits params with
      | none => .error (.undefined .shiftTooWide, s.trace)
      | some mask =>
        let n := H.numQubitsRepresented s.trace s.qubits
        if 31 ≤ n then .error (.undefined .powOutOfRange, s.trace)
        else
          let s := { s with measureQubits := mask }
          .ok { s with probs := (List.range (2 ^ n)).foldl (recordState H s) s.probs }
  | none => .error (.thrown .unknownPrimitive, s.trace)

/-- The lambda `standardGateInstrExecutor`. -/
def standardGateInstrExecutor {P : Type} (L : Layout) (s : ExecState P) (gate : Nat)
    (params targets : List Nat) : Except Aborted (ExecState P) :=
  if !s.isInitialized then .error (.thrown .notInitialized, s.trace)
  else
    match execute L gate params targets with
    | .error a => .error (a, s.trace)
    | .ok calls => .ok { s with trace := s.trace ++ calls.map (KernelCall.gate s.qubits) }

/-- The method `ByteCode::forEach` applied to the two executors. -/
def forEach {P : Type} (H : Host P) (L : Layout) : ExecState P → List Instruction →
    Except Aborted (ExecState P)
  | s, [] => .ok s
  | s, .primitive opcode params :: rest =>
    match primitiveInstrExecutor H s opcode params with
    | .error a => .error a
    | .ok s' => forEach H L s' rest
  | s, .standard gate params targets :: rest =>
    match standardGateInstrExecutor L s gate params targets with
    | .error a => .error a
    | .ok s' => forEach H L s' rest

/-- The function `executeOnce`: the probability map and the kernel calls made, the
last of which is `destroyQureg(qubits, env)`, or the way the walk aborted. -/
def executeOnce {P : Type} (H : Host P) (L : Layout) (bytecode : List Instruction) :
    Except Aborted (List (Nat × P) × List KernelCall) :=
  match forEach H L (ExecState.init P) bytecode with
  | .error a => .error a
  | .ok s => .ok (s.probs, s.trace ++ [.destroyQureg s.qubits])

/-- One `MeasurementResultEntry`. -/
structure MeasurementResultEntry where
  value : Nat
  count : Nat
  deriving DecidableEq, Repr

/-- The struct `MeasurementResult`; `measurements = none` is the null pointer. -/
structure MeasurementResult where
  shots : Nat
  result_size : Nat
  measurements : Option (List MeasurementResultEntry)
  deriving DecidableEq, Repr

/-- The struct `ExecuteResult`. -/
structure ExecuteResult where
  error : Nat
  measurement : MeasurementResult
  deriving DecidableEq, Repr

/-- The array `states`: each key of `probs`, in key order, repeated
`round(prob * (1 << 16))` times, a number taken to be in the range of the `int` counter
of that loop, as it is for a probability. -/
def buildStates {P : Type} (H : Host P) (probs : List (Nat × P)) : List Nat :=
  probs.flatMap (fun entry => List.replicate (H.copies entry.2) entry.1)

/-- The draw `idx = rng() % (1 << 16)` followed by the loop
`while (idx >= states.size()) idx = rng() % (1 << 16)`, reading from the sequence of
generator outputs: the index found and the outputs left, or `none` when no output of
the sequence gives an index in range. -/
def drawIndex (size : Nat) : List Nat → Option (Nat × List Nat)
  | [] => none
  | r :: rng => if r % 2 ^ 16 ≥ size then drawIndex size rng else some (r % 2 ^ 16, rng)

/-- The loop `for (int i = 0; i < shots; i++)` of the sampling stage, tallying into
`measurements`, from the value `i` of the counter with `remaining = shots - i` iterations
to go. The counter is an `int` and `shots` a `uint32_t`: the test compares them as
unsigned values, and the increment at `i = 2 ^ 31 - 1`, which a shot count of `2 ^ 31` or
more reaches, is undefined. The result is `none` when the generator outputs given do not
suffice for the draws, the overflow when the increment is reached, and the tallies when
the loop ends. -/
def sampleShots (states : List Nat) :
    Nat → Nat → List Nat → List (Nat × Nat) → Option (Except Undefined (List (Nat × Nat)))
  | 0, _, _, measurements => some (.ok measurements)
  | remaining + 1, i, rng, measurements =>
    match drawIndex states.length rng with
    | none => none
    | some (idx, rng') =>
      if i + 1 > 2 ^ 31 - 1 then some (.error .counterOverflow)
      else
        sampleShots states remaining (i + 1) rng' (mapUpdate (fun old => match old with
          | none => 1
          | some c => c + 1) measurements (states.getD idx 0))

/-- The sampling stage of `qivm_exec_bytecode` (from `std::vector<uint64_t> states` to
the loop that fills `result.measurement`): the measurement report for `probs`, the
undefined operation the stage runs into, or `none` when the generator outputs `rng`,
those drawn after the shuffle, do not suffice for the draws of the sampling loop. -/
def sample {P : Type} (H : Host P) (probs : List (Nat × P)) (shots : Nat) (rng : List Nat) :
    Option (Except Undefined MeasurementResult) :=
  match sampleShots (H.shuffle (buildStates H probs)) shots 0 rng [] with
  | none => none
  | some (.error u) => some (.error u)
  | some (.ok measurements) =>
    some (.ok { shots := shots
                result_size := measurements.length
                measurements :=
                  some (measurements.map (fun kv => { value := kv.1, count := kv.2 })) })

/-- How a call of `qivm_exec_bytecode` ends. -/
inductive Outcome
  /-- The function returns this `ExecuteResult`. -/
  | returned (result : ExecuteResult)
  /-- The execution runs into undefined behaviour. -/
  | undefined (u : Undefined)
  /-- The sampling loop is still drawing when the generator outputs given end. -/
  | sampling
  deriving DecidableEq, Repr

/-- A run of `qivm_exec_bytecode`: the kernel calls made on registers and the outcome. -/
structure Run where
  trace : List KernelCall
  outcome : Outcome
  deriving DecidableEq, Repr

/-- The value `ExecuteResult { .error = code, .measurement = { 0, 0, nullptr } }`. -/
def ExecuteResult.failure (code : Nat) : ExecuteResult :=
  { error := code, measurement := { shots := 0, result_size := 0, measurements := none } }

/-- The function `qivm_exec_bytecode(rawBytecode, bytecodeLength, shots)`, `bytes` being
the `bytecodeLength` bytes at `rawBytecode` and `rng` the outputs of the generator
after the shuffle. -/
def qivm_exec_bytecode {P : Type} (H : Host P) (L : Layout) (bytes : List Byte) (shots : Nat)
    (rng : List Nat) : Run :=
  match ByteCode L bytes with
  | .error _ => { trace := [], outcome := .returned (.failure 2) }
  | .ok bytecode =>
    match executeOnce H L bytecode with
    | .error (.thrown _, trace) => { trace := trace, outcome := .returned (.failure 1) }
    | .error (.undefined u, trace) => { trace := trace, outcome := .undefined u }
    | .ok (probs, trace) =>
      match sample H probs shots rng with
      | none => { trace := trace, outcome := .sampling }
      | some (.error u) => { trace := trace, outcome := .undefined u }
      | some (.ok report) =>
        { trace := trace, outcome := .returned { error := 0, measurement := report } }

/-- The array `GATES`. -/
def GATES : List String :=
  ["I", "H", "X", "Y", "Z", "XPOW", "YPOW", "ZPOW", "S", "SD", "T", "TD", "V", "VD", "P", "RX",
    "RY", "RZ", "RN", "U", "CX", "CY", "CZ", "CH", "CP", "SWP", "SSWP", "SSWPD", "ISWP", "ISWPD",
    "SISWP", "SISWPD", "CAN", "CCX", "CSWP"]

/-- The function `qivm_is_gate_available`. -/
def qivm_is_gate_available (ident : String) : Bool :=
  GATES.any (fun gate => ident == gate)

/-- Modelled from the spec: the method `gateIdent` is declared in `instruction.hpp`,
which is not among the sources; it gives "the gate identifier" of the catalogue, the
name of the enumerator. -/
def StandardGate.ident : StandardGate → String
  | .I => "I" | .H => "H" | .X => "X" | .Y => "Y" | .Z => "Z" | .XPOW => "XPOW"
  | .YPOW => "YPOW" | .ZPOW => "ZPOW" | .S => "S" | .SD => "SD" | .T => "T" | .TD => "TD"
  | .V => "V" | .VD => "VD" | .P => "P" | .RX => "RX" | .RY => "RY" | .RZ => "RZ"
  | .RN => "RN" | .U => "U" | .CX => "CX" | .CY => "CY" | .CZ => "CZ" | .CH => "CH"
  | .CP => "CP" | .SWP => "SWP" | .SSWP => "SSWP" | .SSWPD => "SSWPD" | .ISWP => "ISWP"
  | .ISWPD => "ISWPD" | .SISWP => "SISWP" | .SISWPD => "SISWPD" | .CAN => "CAN"
  | .CCX => "CCX" | .CSWP => "CSWP"

/-- A host used in examples, with `double` replaced by fixed-point numbers counting
multiples of `2 ^ -16` (so `1e-10` rounds to 0): a kernel that always measures 0,
reports one qubit and puts all the probability on basis state 0, and a shuffle that
leaves the array as it is. -/
def Host.example : Host Nat where
  measure _ _ _ := 0
  numQubitsRepresented _ _ := 1
  getProbAmp _ _ state := if state = 0 then 65536 else 0
  aboveThreshold p := decide (p > 0)
  add := (· + ·)
  copies p := p
  shuffle := id
  shuffle_perm _ := List.Perm.refl _

/-- The table "Supported execution subset" of the specification: the number of
parameters and of targets of each gate of the subset, `none` for the other catalogue
gates. -/
def specArity : StandardGate → Option (Nat × Nat)
  | .I | .H | .X | .Y | .Z | .S | .SD | .T | .TD => some (0, 1)
  | .P | .RX | .RY | .RZ => some (1, 1)
  | .CX | .CY | .CZ | .SWP | .SSWP => some (0, 2)
  | .CP => some (1, 2)
  | .CCX => some (0, 3)
  | _ => none

/-! ## Wire encoding (section 4.A of the specification) -/

/-- A count byte followed by the cells, each as `w` little-endian bytes. -/
def encodeCells (w : Nat) (cells : List Nat) : List Byte :=
  cellBytes 1 cells.length ++ cells.flatMap (cellBytes w)

/-- The wire encoding of an instruction as the specification describes it: the tag
byte, the opcode byte or the gate identifier, the parameter count and the 8-byte
parameter cells and, for a `StandardGate`, the target count and the target cells. -/
def Instruction.encode (L : Layout) : Instruction → List Byte
  | .primitive opcode params => [1] ++ cellBytes 1 opcode ++ encodeCells 8 params
  | .standard gate params targets =>
    [2] ++ cellBytes L.gateWidth gate ++ encodeCells 8 params ++ encodeCells L.addrWidth targets

/-- The instructions that have a wire encoding: a supported primitive opcode, a gate
identifier and targets that fit their cells, 64-bit parameters, at most 255 of each. -/
def Instruction.WellFormed (L : Layout) : Instruction → Prop
  | .primitive opcode params =>
    opcode ≤ 2 ∧ params.length ≤ 255 ∧ ∀ p ∈ params, p < 256 ^ 8
  | .standard gate params targets =>
    gate < 256 ^ L.gateWidth ∧ params.length ≤ 255 ∧ (∀ p ∈ params, p < 256 ^ 8) ∧
      targets.length ≤ 255 ∧ ∀ t ∈ targets, t < 256 ^ L.addrWidth

instance (L : Layout) (i : Instruction) : Decidable (i.WellFormed L) := by
  cases i <;> unfold Instruction.WellFormed <;> infer_instance

/-- A well-formed byte stream: each instruction of `items` preceded by the given
number of `Nop` tag bytes, and `trailing` more `Nop` bytes at the end. -/
def encodeStream (L : Layout) (items : List (Nat × Instruction)) (trailing : Nat) : List Byte :=
  items.flatMap (fun item => List.replicate item.1 0 ++ item.2.encode L) ++
    List.replicate trailing 0

/-! ## Notions of the specification used to state the properties -/

/-- The measurement mask as the specification describes it, "bit-OR with
`1 << qubit_index`" of each listed qubit taken as the integer `2 ^ qubit_index`,
starting from `mask`. -/
def specMask (mask : Nat) (qubits : List Nat) : Nat :=
  qubits.foldl (fun m q => m ||| 2 ^ q) mask

/-- The `measure_mask` of a program: the one of `specMask` over the qubits listed by
every `Measure` instruction, starting from `mask`. -/
def measureMask (mask : Nat) : List Instruction → Nat
  | [] => mask
  | .primitive opcode params :: rest =>
    if PrimitiveOpCode.ofValue opcode = some .Measure then
      measureMask (specMask mask params) rest
    else measureMask mask rest
  | .standard _ _ _ :: rest => measureMask mask rest

/-- The complement `~m` of a 64-bit unsigned value. -/
def complement64 (m : Nat) : Nat := m ^^^ (2 ^ 64 - 1)

/-- The lookup `m.find(k)` in a `std::map`. -/
def mapFind {V : Type} : List (Nat × V) → Nat → Option V
  | [], _ => none
  | (k', v) :: m, k => if k = k' then some v else mapFind m k

/-- The sum of a sequence of `double` values accumulated from left to right with the
addition `add`, starting from the first value; `none` for the empty sequence. -/
def sumInOrder {P : Type} (add : P → P → P) (values : List P) : Option P :=
  values.foldl (fun acc p => some (match acc with
    | none => p
    | some v => add v p)) none

/-- The indices `idx` at which the loop `for (int i = 0; i < shots; i++)` of the
sampling stage reads `states[idx]`, in order, for an array of the given size: the
loop of `sampleShots`, from the same counter value, with the reads recorded instead of
the tallies. The read of the iteration whose increment overflows is the last. -/
def sampleReads (size : Nat) : Nat → Nat → List Nat → List Nat
  | 0, _, _ => []
  | remaining + 1, i, rng =>
    match drawIndex size rng with
    | none => []
    | some (idx, rng') =>
      if i + 1 > 2 ^ 31 - 1 then [idx] else idx :: sampleReads size remaining (i + 1) rng'

/-- The fixed catalogue of the specification. -/
def catalogue : List String :=
  ["I", "H", "X", "Y", "Z", "XPOW", "YPOW", "ZPOW", "S", "SD", "T", "TD", "V", "VD", "P", "RX",
    "RY", "RZ", "RN", "U", "CX", "CY", "CZ", "CH", "CP", "SWP", "SSWP", "SSWPD", "ISWP", "ISWPD",
    "SISWP", "SISWPD", "CAN", "CCX", "CSWP"]

/-- The dispatch table of the specification: the kernel call each gate of the
execution subset stands for, on the targets in order and with the parameter as
angle; `none` for the other catalogue gates. -/
def dispatchTable : StandardGate → List Nat → List Nat → Option (List GateCall)
  | .I, _, _ => some []
  | .H, _, t => some [.hadamard (toInt (elemAt t 0))]
  | .X, _, t => some [.pauliX (toInt (elemAt t 0))]
  | .Y, _, t => some [.pauliY (toInt (elemAt t 0))]
  | .Z, _, t => some [.pauliZ (toInt (elemAt t 0))]
  | .S, _, t => some [.sGate (toInt (elemAt t 0))]
  | .T, _, t => some [.tGate (toInt (elemAt t 0))]
  | .SD, _, t => some [.rotateX (toInt (elemAt t 0)) .negHalfPi]
  | .TD, _, t => some [.rotateX (toInt (elemAt t 0)) .negQuarterPi]
  | .P, p, t => some [.phaseShift (toInt (elemAt t 0)) (.float64 (elemAt p 0))]
  | .RX, p, t => some [.rotateX (toInt (elemAt t 0)) (.float64 (elemAt p 0))]
  | .RY, p, t => some [.rotateY (toInt (elemAt t 0)) (.float64 (elemAt p 0))]
  | .RZ, p, t => some [.rotateZ (toInt (elemAt t 0)) (.float64 (elemAt p 0))]
  | .CX, _, t => some [.controlledNot (toInt (elemAt t 0)) (toInt (elemAt t 1))]
  | .CY, _, t => some [.controlledPauliY (toInt (elemAt t 0)) (toInt (elemAt t 1))]
  | .SWP, _, t => some [.swapGate (toInt (elemAt t 0)) (toInt (elemAt t 1))]
  | .SSWP, _, t => some [.sqrtSwapGate (toInt (elemAt t 0)) (toInt (elemAt t 1))]
  | .CZ, _, t => some [.controlledRotateZ (toInt (elemAt t 0)) (toInt (elemAt t 1)) .zero]
  | .CP, p, t =>
    some [.controlledPhaseShift (toInt (elemAt t 0)) (toInt (elemAt t 1))
      (.float64 (elemAt p 0))]
  | .CCX, _, t =>
    some [.multiControlledMultiQubitNot [toInt (elemAt t 0), toInt (elemAt t 1)]
      [toInt (elemAt t 2)]]
  | _, _, _ => none

/-! ## Runtime library (`runtime.c`) and compiler interface (`stateq_compiler.h`) -/

/-- The function `uint32_count_ones` on a `uint32_t` value: every subtraction and
addition is reduced modulo `2 ^ 32`. The result, below 64, is returned as `int`. -/
def uint32_count_ones (value : Nat) : Nat :=
  let value := (value + 2 ^ 32 - ((value >>> 1) &&& 0x55555555)) % 2 ^ 32
  let value := ((value &&& 0x33333333) + ((value >>> 2) &&& 0x33333333)) % 2 ^ 32
  let value := ((value + (value >>> 4)) % 2 ^ 32) &&& 0x0F0F0F0F
  let value := (value + (value >>> 8)) % 2 ^ 32
  let value := (value + (value >>> 16)) % 2 ^ 32
  value &&& 0x0000003F

/-- The number of bits set in a 32-bit value. -/
def bitCount (v : Nat) : Nat :=
  ((List.range 32).filter (fun i => v.testBit i)).length

/-- The struct `StateqBits`: the `data_size` blocks at `data`, each a `uint32_t`. -/
structure StateqBits where
  data : List Nat

/-- The field `data_size`. -/
def StateqBits.data_size (bits : StateqBits) : Nat := bits.data.length

/-- The loop of `stateq_bits_count_ones` from block `i` on, with `cnt_ones` so far;
`i` and `cnt_ones` are of type `int`, and `none` is the overflow of one of them, which
is undefined. -/
def countOnesFrom : List Nat → Nat → Nat → Option Nat
  | [], _, cnt_ones => some cnt_ones
  | block :: rest, i, cnt_ones =>
    if cnt_ones + uint32_count_ones block > 2 ^ 31 - 1 then none
    else if i + 1 > 2 ^ 31 - 1 then none
    else countOnesFrom rest (i + 1) (cnt_ones + uint32_count_ones block)

/-- The function `stateq_bits_count_ones`. -/
def stateq_bits_count_ones (bitset : StateqBits) : Option Nat :=
  countOnesFrom bitset.data 0 0

/-- Whether a value is in the range of `int64_t`. -/
def fitsInt64 (x : Int) : Bool := decide (-(2 ^ 63) ≤ x) && decide (x < 2 ^ 63)

/-- The operation `(a * b) % mod` on `int64_t` values; `none` when the product is
outside the range of `int64_t` or `mod` is zero, which is undefined. The remainder
has the sign of the product. -/
def mulMod (a b mod : Int) : Option Int :=
  if fitsInt64 (a * b) && decide (mod ≠ 0) then some ((a * b).tmod mod) else none

/-- The loop of `mpowi`, run for at most `fuel` iterations; `none` is undefined
behaviour, or a loop still running after `fuel` iterations. Inside the loop
`exponent` is positive, so that `exponent & 1` is its remainder modulo 2 and
`exponent >>= 1` halves it. -/
def mpowiLoop : Nat → Int → Int → Int → Int → Option Int
  | 0, result, _, exponent, _ => if exponent > 0 then none else some result
  | fuel + 1, result, base, exponent, mod =>
    if exponent > 0 then
      match (if exponent % 2 = 1 then mulMod result base mod else some result) with
      | none => none
      | some result' =>
        match mulMod base base mod with
        | none => none
        | some base' => mpowiLoop fuel result' base' (exponent / 2) mod
    else some result

/-- The function `mpowi`; an `int64_t` exponent is exhausted by 63 halvings. -/
def mpowi (base exponent mod : Int) : Option Int :=
  mpowiLoop 64 1 base exponent mod

/-- The struct `StateqBitsIterator`, without the pointer `bits`, which never changes. -/
structure StateqBitsIterator where
  block_offset : Int
  bit_offset : Int
  next : Int
  deriving DecidableEq, Repr

/-- The ways a call on an iterator goes wrong. -/
inductive IteratorFault
  /-- An `assert` fails; assertions are taken as compiled in. -/
  | assertion
  /-- The read `bits->data[block_offset]` is outside the `data_size` blocks. -/
  | outOfBounds
  /-- An addition or multiplication on `int` values leaves the range of `int`, which is
  undefined. -/
  | intOverflow
  deriving DecidableEq, Repr

/-- The conversion of an `int` to `size_t` made by a comparison with `data_size`. -/
def toSizeT (x : Int) : Nat := (x % 2 ^ 64).toNat

/-- Whether a value is in the range of `int`. -/
def fitsInt (x : Int) : Bool := decide (-(2 ^ 31) ≤ x) && decide (x < 2 ^ 31)

/-- The function `stateq_bits_iterator`. -/
def stateq_bits_iterator : StateqBitsIterator :=
  { block_offset := 0, bit_offset := 0, next := -1 }

/-- The function `stateq_bits_iterator_has_next_bit`; `data_size - 1` is computed in
`size_t`, where it is `2 ^ 64 - 1` for `data_size = 0`. -/
def stateq_bits_iterator_has_next_bit (bits : StateqBits) (iterator : StateqBitsIterator) :
    Except IteratorFault Bool :=
  if ¬ iterator.bit_offset < 32 then .error .assertion
  else
    let last := if bits.data_size = 0 then 2 ^ 64 - 1 else bits.data_size - 1
    .ok (decide (toSizeT iterator.block_offset < last) ||
      (decide (toSizeT iterator.block_offset = last) && decide (iterator.bit_offset < 31)))

/-- The function `stateq_bits_iterator_next_bit`: the bit returned and the iterator
after the call. The field `block_offset` is an `int`, so `block_offset += 1` is undefined
at the largest `int`. -/
def stateq_bits_iterator_next_bit (bits : StateqBits) (iterator : StateqBitsIterator) :
    Except IteratorFault (Bool × StateqBitsIterator) :=
  match stateq_bits_iterator_has_next_bit bits iterator with
  | .error f => .error f
  | .ok false => .error .assertion
  | .ok true =>
    if iterator.bit_offset < 31 ∧ fitsInt (iterator.block_offset + 1) = false then
      .error .intOverflow
    else
      let iterator : StateqBitsIterator :=
        if iterator.bit_offset < 31 then
          { iterator with block_offset := iterator.block_offset + 1 }
        else
          { iterator with block_offset := 0 + 1 }
      if 0 ≤ iterator.block_offset ∧ iterator.block_offset.toNat < bits.data_size then
        let block := bits.data.getD iterator.block_offset.toNat 0
        .ok (decide ((block >>> iterator.bit_offset.toNat) &&& 1 ≠ 0), iterator)
      else .error .outOfBounds

/-- The loop `while (stateq_bits_iterator_has_next_bit(iterator))` of
`stateq_bits_iterator_has_next`, run for at most `fuel` iterations; `none` is a loop
still running after `fuel` iterations. The position `block_offset * 32 + bit_offset` is
computed in `int` before it is stored in the `int64_t` field `next`. -/
def hasNextLoop (bits : StateqBits) :
    Nat → StateqBitsIterator → Option (Except IteratorFault (Bool × StateqBitsIterator))
  | 0, _ => none
  | fuel + 1, iterator =>
    match stateq_bits_iterator_has_next_bit bits iterator with
    | .error f => some (.error f)
    | .ok false => some (.ok (false, iterator))
    | .ok true =>
      match stateq_bits_iterator_next_bit bits iterator with
      | .error f => some (.error f)
      | .ok (true, iterator) =>
        if fitsInt (iterator.block_offset * 32) &&
            fitsInt (iterator.block_offset * 32 + iterator.bit_offset) then
          some (.ok (true,
            { iterator with next := iterator.block_offset * 32 + iterator.bit_offset }))
        else some (.error .intOverflow)
      | .ok (false, iterator) => hasNextLoop bits fuel iterator

/-- The function `stateq_bits_iterator_has_next`: the value returned and the iterator
after the call. From an iterator with `bit_offset < 31` every iteration of the loop
moves `block_offset` one block forward, so `data_size + 1` iterations end it. -/
def stateq_bits_iterator_has_next (bits : StateqBits) (iterator : StateqBitsIterator) :
    Option (Except IteratorFault (Bool × StateqBitsIterator)) :=
  if ¬ iterator.next ≥ -2 then some (.error .assertion)
  else if iterator.next ≥ 0 then some (.ok (true, iterator))
  else if iterator.next = -2 then some (.ok (false, iterator))
  else hasNextLoop bits (bits.data_size + 1) iterator

/-- The function `stateq_bits_iterator_next`; the call of
`stateq_bits_iterator_has_next` inside its `assert` is what moves the iterator. -/
def stateq_bits_iterator_next (bits : StateqBits) (iterator : StateqBitsIterator) :
    Option (Except IteratorFault (Int × StateqBitsIterator)) :=
  match stateq_bits_iterator_has_next bits iterator with
  | none => none
  | some (.error f) => some (.error f)
  | some (.ok (false, _)) => some (.error .assertion)
  | some (.ok (true, iterator)) => some (.ok (iterator.next, { iterator with next := -1 }))

/-- The loop `for (int i = 1; i < index; i++) stateq_bits_iterator_next(&iterator)` of
`stateq_get_index_of_bits`, for the number of iterations it makes. -/
def skipBits (bits : StateqBits) :
    Nat → StateqBitsIterator → Option (Except IteratorFault StateqBitsIterator)
  | 0, iterator => some (.ok iterator)
  | n + 1, iterator =>
    match stateq_bits_iterator_next bits iterator with
    | none => none
    | some (.error f) => some (.error f)
    | some (.ok (_, iterator)) => skipBits bits n iterator

/-- The function `stateq_get_index_of_bits`. -/
def stateq_get_index_of_bits (bits : StateqBits) (index : Int) :
    Option (Except IteratorFault Int) :=
  match skipBits bits (index - 1).toNat stateq_bits_iterator with
  | none => none
  | some (.error f) => some (.error f)
  | some (.ok iterator) =>
    match stateq_bits_iterator_next bits iterator with
    | none => none
    | some (.error f) => some (.error f)
    | some (.ok (result, _)) => some (.ok result)

/-- The positions `block * 32 + bit` of the set bits of a bitset, in ascending order. -/
def setBitPositions (bits : StateqBits) : List Nat :=
  (List.range (bits.data_size * 32)).filter
    (fun pos => (bits.data.getD (pos / 32) 0).testBit (pos % 32))

/-- The function `get_entry_from_list` for a list of `size` entries: `none` is `NULL`,
`some i` is the address `&list->entries[i]`. -/
def get_entry_from_list (size index : Nat) : Option Nat :=
  if index > size then none else some index

/-- The number of bits set among the lowest `n` bits of `v`. -/
def bitsBelow : Nat → Nat → Nat
  | 0, _ => 0
  | n + 1, v => v % 2 + bitsBelow n (v / 2)

/-- The value with the bytes `a`, `b`, `c`, `d`, lowest first. -/
def bytes4 (a b c d : Nat) : Nat := a + 256 * (b + 256 * (c + 256 * d))

/-- The first step of `uint32_count_ones` on one byte: the counts of its four pairs. -/
def bytePairs (a : Nat) : Nat := a - ((a / 2) &&& 0x55)

/-- The second step of `uint32_count_ones` on one byte: the counts of its two nibbles. -/
def byteNibbles (a : Nat) : Nat := (bytePairs a &&& 0x33) + ((bytePairs a / 4) &&& 0x33)

/-! ## Theorems: the decoder -/

namespace Parser

/-- A computation is framed when a successful run reads a prefix `used` of its input
and nothing else: it gives the same result whatever follows `used`, and it throws
"Unexpected end of bytecode" on every proper prefix of `used`. -/
def Framed {α : Type} (p : Parser α) : Prop :=
  ∀ bs a rest, p bs = .ok (a, rest) →
    ∃ used, bs = used ++ rest ∧ (∀ tail, p (used ++ tail) = .ok (a, tail)) ∧
      ∀ pre suf, used = pre ++ suf → suf ≠ [] → p pre = .error .unexpectedEnd

theorem bind_apply {α β : Type} (p : Parser α) (f : α → Parser β) (bs : List Byte) :
    (p >>= f) bs = match p bs with
      | .error e => .error e
      | .ok (a, rest) => f a rest := rfl

theorem pure_apply {α : Type} (a : α) (bs : List Byte) :
    (Pure.pure a : Parser α) bs = .ok (a, bs) := rfl

theorem framed_pure {α : Type} (a : α) : Framed (Pure.pure a : Parser α) := by
  intro bs b rest h
  rw [pure_apply] at h
  cases h
  exact ⟨[], rfl, fun tail => rfl, fun pre suf hs hne => by simp_all⟩

theorem framed_fail {α : Type} (e : BytecodeParseException) : Framed (fail e : Parser α) := by
  intro bs b rest h
  simp [fail] at h

theorem framed_bind {α β : Type} {p : Parser α} {f : α → Parser β} (hp : Framed p)
    (hf : ∀ a, Framed (f a)) : Framed (p >>= f) := by
  intro bs b rest h
  rw [bind_apply] at h
  cases hpb : p bs with
  | error e => simp [hpb] at h
  | ok ar =>
    obtain ⟨a, r⟩ := ar
    simp only [hpb] at h
    obtain ⟨u1, hbs, hext1, hpre1⟩ := hp bs a r hpb
    obtain ⟨u2, hr, hext2, hpre2⟩ := hf a r b rest h
    refine ⟨u1 ++ u2, by rw [hbs, hr, List.append_assoc], ?_, ?_⟩
    · intro tail
      rw [bind_apply, List.append_assoc, hext1]
      exact hext2 tail
    · intro pre suf hsplit hne
      rw [bind_apply]
      rcases List.append_eq_append_iff.1 hsplit with ⟨a', h1, h2⟩ | ⟨c', h1, h2⟩
      · rw [h1, hext1]
        exact hpre2 a' suf h2 hne
      · by_cases hc : c' = []
        · subst hc
          simp only [List.append_nil, List.nil_append] at h1 h2
          subst h1
          have := hext1 []
          rw [List.append_nil] at this
          rw [this]
          exact hpre2 [] suf (by simpa using h2.symm) hne
        · rw [hpre1 pre c' h1 hc]

end Parser


theorem framed_next (w : Nat) : Parser.Framed (next w) := by
  induction w with
  | zero =>
    intro bs a rest h
    simp only [next, Except.ok.injEq, Prod.mk.injEq] at h
    obtain ⟨rfl, rfl⟩ := h
    exact ⟨[], rfl, fun tail => rfl, fun pre suf hs hne => by simp_all⟩
  | succ w ih =>
    intro bs a rest h
    cases bs with
    | nil => simp [next] at h
    | cons b t =>
      simp only [next] at h
      cases hn : next w t with
      | error e => simp [hn] at h
      | ok vr =>
        obtain ⟨v, r⟩ := vr
        simp only [hn, Except.ok.injEq, Prod.mk.injEq] at h
        obtain ⟨rfl, rfl⟩ := h
        obtain ⟨u, ht, hext, hpre⟩ := ih t v r hn
        refine ⟨b :: u, by rw [ht, List.cons_append], ?_, ?_⟩
        · intro tail
          simp only [List.cons_append, next, hext]
        · intro pre suf hs hne
          cases pre with
          | nil => rfl
          | cons b' pre' =>
            simp only [List.cons_append, List.cons.injEq] at hs
            obtain ⟨rfl, hu⟩ := hs
            simp only [next, hpre pre' suf hu hne]

theorem framed_nextCells (w n : Nat) : Parser.Framed (nextCells w n) := by
  induction n with
  | zero => exact Parser.framed_pure _
  | succ n ih =>
    exact Parser.framed_bind (framed_next w) fun v => Parser.framed_bind ih fun vs => Parser.framed_pure _

theorem framed_decodeStep (L : Layout) : Parser.Framed (decodeStep L) := by
  unfold decodeStep
  refine Parser.framed_bind (framed_next 1) fun instrType => ?_
  split
  · exact Parser.framed_pure _
  · refine Parser.framed_bind (framed_next 1) fun opcode => ?_
    split
    · exact Parser.framed_fail _
    · exact Parser.framed_bind (framed_next 1) fun size =>
        Parser.framed_bind (framed_nextCells _ size) fun params => Parser.framed_pure _
  · exact Parser.framed_bind (framed_next _) fun gate =>
      Parser.framed_bind (framed_next 1) fun numParams =>
        Parser.framed_bind (framed_nextCells _ numParams) fun params =>
          Parser.framed_bind (framed_next 1) fun numTargetQubits =>
            Parser.framed_bind (framed_nextCells _ numTargetQubits) fun target => Parser.framed_pure _
  · exact Parser.framed_fail _

theorem decodeStep_nil (L : Layout) : decodeStep L [] = .error .unexpectedEnd := rfl

/-- Every iteration of the decoding loop moves the iterator forward. -/
theorem decodeStep_length (L : Layout) {bs rest : List Byte} {i : Option Instruction}
    (h : decodeStep L bs = .ok (i, rest)) : rest.length < bs.length := by
  obtain ⟨used, hbs, hext, -⟩ := framed_decodeStep L bs i rest h
  cases used with
  | nil =>
    have := hext []
    rw [List.append_nil, decodeStep_nil] at this
    cases this
  | cons b u =>
    simp only [hbs, List.cons_append, List.length_cons, List.length_append]
    omega

theorem decodeLoop_nil (L : Layout) (fuel : Nat) : decodeLoop L fuel [] = some (.ok []) := by
  cases fuel <;> rfl

/-- The decoding loop ends within `bytes.length` iterations, with the same result
for every larger bound. -/
theorem decodeLoop_eq (L : Layout) (fuel : Nat) (bs : List Byte) (h : bs.length ≤ fuel) :
    decodeLoop L fuel bs = some (ByteCode L bs) := by
  suffices key : ∀ f1 f2 (bs : List Byte), bs.length ≤ f1 → bs.length ≤ f2 →
      decodeLoop L f1 bs = decodeLoop L f2 bs ∧ ∃ r, decodeLoop L f1 bs = some r by
    obtain ⟨r, hr⟩ := (key bs.length fuel bs le_rfl h).2
    rw [← (key bs.length fuel bs le_rfl h).1]
    simp only [ByteCode, hr]
  intro f1
  induction f1 with
  | zero =>
    intro f2 bs h1 h2
    have : bs = [] := List.length_eq_zero.1 (Nat.le_zero.1 h1)
    subst this
    simp [decodeLoop_nil]
  | succ f1 ih =>
    intro f2 bs h1 h2
    cases bs with
    | nil => simp [decodeLoop_nil]
    | cons b t =>
      cases f2 with
      | zero => simp at h2
      | succ f2 =>
        simp only [decodeLoop]
        cases hs : decodeStep L (b :: t) with
        | error e => simp
        | ok ir =>
          obtain ⟨i, rest⟩ := ir
          have hlen := decodeStep_length L hs
          simp only [List.length_cons] at hlen h1 h2
          obtain ⟨heq, r, hr⟩ := ih f2 rest (by omega) (by omega)
          simp only [← heq, hr]
          cases r <;> simp

theorem decodeLoop_isSome (L : Layout) (bs : List Byte) :
    (decodeLoop L bs.length bs).isSome = true := by
  rw [decodeLoop_eq L bs.length bs le_rfl]
  rfl

theorem ByteCode_nil (L : Layout) : ByteCode L [] = .ok [] := rfl

/-- One iteration of the decoding loop on a stream that is not empty. -/
theorem ByteCode_step (L : Layout) {bs : List Byte} (hne : bs ≠ []) :
    ByteCode L bs = match decodeStep L bs with
      | .error e => .error e
      | .ok (i, rest) =>
        match ByteCode L rest with
        | .error e => .error e
        | .ok instrs => .ok (i.toList ++ instrs) := by
  cases bs with
  | nil => exact absurd rfl hne
  | cons b t =>
    have h := decodeLoop_eq L (t.length + 1) (b :: t) (by simp)
    simp only [decodeLoop] at h
    cases hs : decodeStep L (b :: t) with
    | error e =>
      simp only [hs, Option.some.injEq] at h
      simp only [← h]
    | ok ir =>
      obtain ⟨i, rest⟩ := ir
      have hlen := decodeStep_length L hs
      simp only [List.length_cons] at hlen
      simp only [hs, decodeLoop_eq L t.length rest (by omega)] at h
      cases hr : ByteCode L rest with
      | error e =>
        simp only [hr, Option.some.injEq] at h
        simp only [hr, ← h]
      | ok instrs =>
        simp only [hr, Option.some.injEq] at h
        simp only [hr, ← h]

/-- A `Nop` tag byte is skipped. -/
theorem ByteCode_nop (L : Layout) (bs : List Byte) : ByteCode L (0 :: bs) = ByteCode L bs := by
  rw [ByteCode_step L (List.cons_ne_nil _ _)]
  have : decodeStep L (0 :: bs) = .ok (none, bs) := rfl
  rw [this]
  cases h : ByteCode L bs <;> simp only [h, Option.toList, List.nil_append]

/-- Decoding a stream that decodes on its own, followed by more bytes: the decoder
reaches the end of the first stream with its instructions and goes on from there. -/
theorem ByteCode_append (L : Layout) (a b : List Byte) {la : List Instruction}
    (ha : ByteCode L a = .ok la) :
    ByteCode L (a ++ b) = match ByteCode L b with
      | .error e => .error e
      | .ok lb => .ok (la ++ lb) := by
  obtain ⟨n, hn⟩ : ∃ n, a.length = n := ⟨_, rfl⟩
  induction n using Nat.strong_induction_on generalizing a la with
  | _ n ih =>
    cases a with
    | nil =>
      rw [ByteCode_nil] at ha
      cases ha
      rw [List.nil_append]
      cases h : ByteCode L b <;> simp only [h, List.nil_append]
    | cons x t =>
      rw [ByteCode_step L (List.cons_ne_nil _ _)] at ha
      cases hs : decodeStep L (x :: t) with
      | error e => simp [hs] at ha
      | ok ir =>
        obtain ⟨i, rest⟩ := ir
        simp only [hs] at ha
        cases hr : ByteCode L rest with
        | error e => simp [hr] at ha
        | ok instrs =>
          simp only [hr, Except.ok.injEq] at ha
          subst ha
          obtain ⟨used, hbs, hext, -⟩ := framed_decodeStep L _ i rest hs
          have hlen := decodeStep_length L hs
          simp only [List.length_cons] at hn hlen
          have hrec := ih rest.length (by omega) rest hr rfl
          rw [ByteCode_step L (by simp), hbs, List.append_assoc, hext]
          simp only [hrec]
          cases h : ByteCode L b <;> simp only [h, List.append_assoc]

/-- Reading a cell gives back the value whose little-endian bytes were written. -/
theorem next_cellBytes (w v : Nat) (tail : List Byte) (h : v < 256 ^ w) :
    next w (cellBytes w v ++ tail) = .ok (v, tail) := by
  induction w generalizing v with
  | zero =>
    have : v = 0 := by simpa using h
    subst this
    rfl
  | succ w ih =>
    have hv : v / 256 < 256 ^ w := by
      rw [Nat.div_lt_iff_lt_mul (by norm_num)]
      rwa [pow_succ] at h
    simp only [cellBytes, List.cons_append, next, ih (v / 256) hv]
    have : (Fin.ofNat (v % 256) : Fin 256).val = v % 256 := by
      simp [Fin.ofNat]
    rw [this]
    congr 2
    omega

theorem nextCells_flatMap (w : Nat) (cells : List Nat) (tail : List Byte)
    (h : ∀ c ∈ cells, c < 256 ^ w) :
    nextCells w cells.length (cells.flatMap (cellBytes w) ++ tail) = .ok (cells, tail) := by
  induction cells with
  | nil => rfl
  | cons c cs ih =>
    have hc := h c (List.mem_cons_self _ _)
    have hcs := ih fun x hx => h x (List.mem_cons_of_mem _ hx)
    simp only [List.length_cons, nextCells, List.flatMap_cons, List.append_assoc, Parser.bind_apply,
      next_cellBytes w c _ hc, hcs, Parser.pure_apply]

theorem decodeStep_primitive (L : Layout) (bs : List Byte) :
    decodeStep L (1 :: bs) = (do
      let opcode ← next opcodeWidth
      if opcode > 2 then
        Parser.fail (.invalidOpcode opcode)
      else
        let size ← next 1
        let params ← nextCells paramWidth size
        pure (some (.primitive opcode params)) : Parser (Option Instruction)) bs := rfl

theorem decodeStep_standard (L : Layout) (bs : List Byte) :
    decodeStep L (2 :: bs) = (do
      let gate ← next L.gateWidth
      let numParams ← next 1
      let params ← nextCells paramWidth numParams
      let numTargetQubits ← next 1
      let target ← nextCells L.addrWidth numTargetQubits
      pure (some (.standard gate params target)) : Parser (Option Instruction)) bs := rfl

/-- One iteration of the decoding loop on the encoding of a well-formed instruction
reads exactly that encoding and yields the instruction. -/
theorem decodeStep_encode (L : Layout) (i : Instruction) (tail : List Byte)
    (h : i.WellFormed L) : decodeStep L (i.encode L ++ tail) = .ok (some i, tail) := by
  cases i with
  | primitive opcode params =>
    obtain ⟨hop, hlen, hps⟩ := h
    simp only [Instruction.encode, encodeCells, List.singleton_append, List.cons_append,
      List.nil_append, List.append_assoc, decodeStep_primitive, opcodeWidth, paramWidth,
      Parser.bind_apply,
      next_cellBytes 1 opcode _ (by omega), if_neg (Nat.not_lt.2 hop),
      next_cellBytes 1 params.length _ (by omega), nextCells_flatMap 8 params _ hps,
      Parser.pure_apply]
  | standard gate params targets =>
    obtain ⟨hg, hlen, hps, htlen, hts⟩ := h
    simp only [Instruction.encode, encodeCells, List.singleton_append, List.cons_append,
      List.nil_append, List.append_assoc, decodeStep_standard, paramWidth, Parser.bind_apply,
      next_cellBytes L.gateWidth gate _ hg,
      next_cellBytes 1 params.length _ (by omega), nextCells_flatMap 8 params _ hps,
      next_cellBytes 1 targets.length _ (by omega),
      nextCells_flatMap L.addrWidth targets _ hts, Parser.pure_apply]

theorem encodeStream_nil (L : Layout) (trailing : Nat) :
    encodeStream L [] trailing = List.replicate trailing 0 := rfl

theorem encodeStream_cons (L : Layout) (item : Nat × Instruction)
    (items : List (Nat × Instruction)) (trailing : Nat) :
    encodeStream L (item :: items) trailing =
      List.replicate item.1 0 ++ (item.2.encode L ++ encodeStream L items trailing) := by
  simp [encodeStream]

theorem ByteCode_nops (L : Layout) (n : Nat) (bs : List Byte) :
    ByteCode L (List.replicate n 0 ++ bs) = ByteCode L bs := by
  induction n with
  | zero => rfl
  | succ n ih => rw [List.replicate_succ, List.cons_append, ByteCode_nop, ih]

/-- Decoding the encoding of a well-formed instruction followed by more bytes. -/
theorem ByteCode_encode_append (L : Layout) (i : Instruction) (bs : List Byte)
    (h : i.WellFormed L) :
    ByteCode L (i.encode L ++ bs) = match ByteCode L bs with
      | .error e => .error e
      | .ok instrs => .ok (i :: instrs) := by
  have hne : i.encode L ++ bs ≠ [] := by cases i <;> simp [Instruction.encode]
  rw [ByteCode_step L hne, decodeStep_encode L i bs h]
  cases hb : ByteCode L bs <;> simp only [hb, Option.toList, List.singleton_append]

/-- Round trip on well-formed streams (shared by the claims on the decoder). -/
theorem ByteCode_encodeStream (L : Layout) (items : List (Nat × Instruction)) (trailing : Nat)
    (h : ∀ item ∈ items, item.2.WellFormed L) :
    ByteCode L (encodeStream L items trailing) = .ok (items.map Prod.snd) := by
  induction items with
  | nil =>
    have := ByteCode_nops L trailing []
    rw [List.append_nil] at this
    rw [encodeStream_nil, this, ByteCode_nil]
    rfl
  | cons item items ih =>
    rw [encodeStream_cons, ByteCode_nops,
      ByteCode_encode_append L item.2 _ (h item (List.mem_cons_self _ _)),
      ih fun x hx => h x (List.mem_cons_of_mem _ hx)]
    rfl

theorem next_one (b : Byte) (bs : List Byte) : next 1 (b :: bs) = .ok (b.val, bs) := by
  simp [next]

/-- An instruction-type tag other than 0, 1 and 2 reaches the `default` label. -/
theorem decodeStep_invalidType (L : Layout) (t : Byte) (rest : List Byte) (ht : 2 < t.val) :
    decodeStep L (t :: rest) = .error (.invalidType t.val) := by
  simp only [decodeStep, Parser.bind_apply, next_one]
  generalize t.val = n at ht
  rcases n with _ | _ | _ | n
  · omega
  · omega
  · omega
  · rfl

/-- A primitive opcode above 2 is rejected once it has been read. -/
theorem decodeStep_invalidOpcode (L : Layout) (op : Byte) (rest : List Byte) (hop : 2 < op.val) :
    decodeStep L (1 :: op :: rest) = .error (.invalidOpcode op.val) := by
  simp only [decodeStep_primitive, opcodeWidth, Parser.bind_apply, next_one, gt_iff_lt,
    if_pos hop]
  rfl

/-- The encoding of an instruction cut strictly inside it does not decode: the decoder
runs out of bytes in the middle of a field. -/
theorem decodeStep_truncated (L : Layout) (i : Instruction) (h : i.WellFormed L) (j : Nat)
    (hj : j < (i.encode L).length) :
    decodeStep L ((i.encode L).take j) = .error .unexpectedEnd := by
  have henc := decodeStep_encode L i [] h
  obtain ⟨used, hbs, -, hpre⟩ := framed_decodeStep L _ _ _ henc
  rw [List.append_nil, List.append_nil] at hbs
  subst hbs
  refine hpre _ ((i.encode L).drop j) (List.take_append_drop j _).symm ?_
  intro hd
  have := congrArg List.length hd
  simp only [List.length_drop, List.length_nil] at this
  omega

theorem ByteCode_truncated (L : Layout) (i : Instruction) (h : i.WellFormed L) (j : Nat)
    (h0 : 0 < j) (hj : j < (i.encode L).length) :
    ByteCode L ((i.encode L).take j) = .error .unexpectedEnd := by
  have hne : (i.encode L).take j ≠ [] := by
    intro hd
    have := congrArg List.length hd
    simp only [List.length_take, List.length_nil] at this
    omega
  rw [ByteCode_step L hne, decodeStep_truncated L i h j hj]

theorem encodeStream_append (L : Layout) (items1 items2 : List (Nat × Instruction))
    (nops : Nat) (instr : Instruction) (trailing : Nat) :
    encodeStream L (items1 ++ (nops, instr) :: items2) trailing =
      encodeStream L items1 nops ++ (instr.encode L ++ encodeStream L items2 trailing) := by
  simp [encodeStream]

/-! ## Theorems: the driver -/

/-- A decoding failure is reported before anything is executed. -/
theorem qivm_exec_bytecode_parse_error {P : Type} (H : Host P) (L : Layout) (bytes : List Byte)
    (shots : Nat) (rng : List Nat) (e : BytecodeParseException)
    (h : ByteCode L bytes = .error e) :
    qivm_exec_bytecode H L bytes shots rng =
      { trace := [], outcome := .returned (.failure 2) } := by
  simp only [qivm_exec_bytecode, h]

/-- An exception thrown during the walk is reported as error 1, with the kernel calls
made before it. -/
theorem qivm_exec_bytecode_thrown {P : Type} (H : Host P) (L : Layout) (bytes : List Byte)
    (shots : Nat) (rng : List Nat) (bytecode : List Instruction) (e : QivmBackendException)
    (trace : List KernelCall) (h : ByteCode L bytes = .ok bytecode)
    (hx : executeOnce H L bytecode = .error (.thrown e, trace)) :
    qivm_exec_bytecode H L bytes shots rng =
      { trace := trace, outcome := .returned (.failure 1) } := by
  simp only [qivm_exec_bytecode, h, hx]

theorem executeOnce_error {P : Type} (H : Host P) (L : Layout) (bytecode : List Instruction)
    (a : Aborted) (h : forEach H L (ExecState.init P) bytecode = .error a) :
    executeOnce H L bytecode = .error a := by
  simp only [executeOnce, h]

/-- Every catalogue gate without a `case` label reaches `default`. -/
theorem execute_unsupported (L : Layout) (gate : Nat) (params targets : List Nat)
    (g : StandardGate) (hid : L.gateOfId gate = some g)
    (hg : g ∈ [StandardGate.XPOW, .YPOW, .ZPOW, .V, .VD, .RN, .U, .CH, .SSWPD, .ISWP, .ISWPD,
      .SISWP, .SISWPD, .CAN, .CSWP]) :
    execute L gate params targets = .error (.thrown (.unsupportedGate gate)) := by
  simp only [List.mem_cons, List.mem_singleton, List.not_mem_nil, or_false] at hg
  rcases hg with h | h | h | h | h | h | h | h | h | h | h | h | h | h | h <;>
    subst h <;> simp only [execute, hid]

/-- The dispatcher returns at once on the identity gate, whatever the instruction
carries. -/
theorem execute_identity (L : Layout) (gate : Nat) (params targets : List Nat)
    (hid : L.gateOfId gate = some .I) : execute L gate params targets = .ok [] := by
  simp only [execute, hid]

theorem length_flatMap_cellBytes (w : Nat) (cells : List Nat) :
    (cells.flatMap (cellBytes w)).length = cells.length * w := by
  have hw : ∀ v, (cellBytes w v).length = w := by
    induction w with
    | zero => intro v; rfl
    | succ w ih => intro v; simp only [cellBytes, List.length_cons, ih]
  induction cells with
  | nil => simp
  | cons c cs ih => simp only [List.flatMap_cons, List.length_append, hw, ih, List.length_cons]; ring

/-- With the sizes of the table every gate of the execution subset is dispatched;
for `CCX` the three `int` reads stay inside `targets` when a qubit address takes at
least four bytes. -/
theorem execute_matching_arity (L : Layout) (gate : Nat) (params targets : List Nat)
    (g : StandardGate) (numParams targetSize : Nat) (hid : L.gateOfId gate = some g)
    (har : specArity g = some (numParams, targetSize)) (hp : params.length = numParams)
    (ht : targets.length = targetSize) (hw : 4 ≤ L.addrWidth) :
    ∃ calls, execute L gate params targets = .ok calls := by
  have hlen := length_flatMap_cellBytes L.addrWidth targets
  rw [ht] at hlen
  cases g <;> simp only [specArity, Option.some.injEq, Prod.mk.injEq, reduceCtorEq] at har <;>
    obtain ⟨rfl, rfl⟩ := har <;>
    simp [execute, hid, assertNumParamsAndTargetSize, hp, ht, intAt, bind, Except.bind, pure,
      Except.pure, hlen]
  have h1 : 4 ≤ 3 * L.addrWidth := by omega
  have h2 : 8 ≤ 3 * L.addrWidth := by omega
  have h3 : 12 ≤ 3 * L.addrWidth := by omega
  simp only [if_pos h1, if_pos h2, if_pos h3]
  exact ⟨_, rfl⟩

/-- With any other sizes every gate of the execution subset except `I` is refused with
one of the two arity exceptions, before any kernel call. -/
theorem execute_arity_mismatch (L : Layout) (gate : Nat) (params targets : List Nat)
    (g : StandardGate) (numParams targetSize : Nat) (hid : L.gateOfId gate = some g)
    (hg : g ≠ .I) (har : specArity g = some (numParams, targetSize))
    (hne : ¬(params.length = numParams ∧ targets.length = targetSize)) :
    execute L gate params targets =
        .error (.thrown (.missingOrExtraParameter g numParams params.length)) ∨
      execute L gate params targets =
        .error (.thrown (.targetSizeNotMatch g targetSize targets.length)) := by
  by_cases hp : params.length = numParams
  · have ht : targets.length ≠ targetSize := fun h => hne ⟨hp, h⟩
    right
    cases g <;> simp only [specArity, Option.some.injEq, Prod.mk.injEq, reduceCtorEq] at har <;>
      first
        | exact absurd rfl hg
        | (obtain ⟨rfl, rfl⟩ := har
           simp [execute, hid, assertNumParamsAndTargetSize, hp, ht, bind, Except.bind])
  · left
    cases g <;> simp only [specArity, Option.some.injEq, Prod.mk.injEq, reduceCtorEq] at har <;>
      first
        | exact absurd rfl hg
        | (obtain ⟨rfl, rfl⟩ := har
           simp [execute, hid, assertNumParamsAndTargetSize, hp, bind, Except.bind])

theorem length_cellBytes (w v : Nat) : (cellBytes w v).length = w := by
  induction w generalizing v with
  | zero => rfl
  | succ w ih => simp only [cellBytes, List.length_cons, ih]

/-- The object representation of a cell holds the value reduced to the cell's width. -/
theorem cellValue_cellBytes (w v : Nat) : cellValue (cellBytes w v) = v % 256 ^ w := by
  induction w generalizing v with
  | zero => simp [cellBytes, cellValue, Nat.mod_one]
  | succ w ih =>
    have hb : (Fin.ofNat (v % 256) : Fin 256).val = v % 256 := by simp [Fin.ofNat]
    simp only [cellBytes, cellValue, ih, hb]
    rw [pow_succ', Nat.mod_mul]

theorem toInt_mod (v : Nat) : toInt (v % 2 ^ 32) = toInt v := by
  simp only [toInt, Nat.mod_mod]

/-- With four-byte qubit addresses the `int` view of three targets is the three
targets, each cast to `int`. -/
theorem intAt_three (L : Layout) (hw : L.addrWidth = 4) (t0 t1 t2 : Nat) :
    intAt L [t0, t1, t2] 0 = .ok (toInt t0) ∧ intAt L [t0, t1, t2] 1 = .ok (toInt t1) ∧
      intAt L [t0, t1, t2] 2 = .ok (toInt t2) := by
  have hl : ∀ t, (cellBytes 4 t).length = 4 := length_cellBytes 4
  have hv : ∀ t, toInt (cellValue (cellBytes 4 t)) = toInt t := by
    intro t
    rw [cellValue_cellBytes]
    exact toInt_mod t
  have hs : [t0, t1, t2].flatMap (cellBytes 4) =
      cellBytes 4 t0 ++ (cellBytes 4 t1 ++ (cellBytes 4 t2 ++ [])) := by
    simp [List.flatMap_cons]
  have hlen : ([t0, t1, t2].flatMap (cellBytes 4)).length = 12 := by
    rw [length_flatMap_cellBytes]
    rfl
  refine ⟨?_, ?_, ?_⟩
  · simp only [intAt, hw, hlen]
    rw [if_pos (by decide), hs, Nat.mul_zero, List.drop_zero, List.take_left' (hl t0), hv]
  · simp only [intAt, hw, hlen]
    rw [if_pos (by decide), hs, Nat.mul_one, List.drop_left' (hl t0),
      List.take_left' (hl t1), hv]
  · simp only [intAt, hw, hlen]
    have h8 : 4 * 2 = 4 + 4 := rfl
    rw [if_pos (by decide), hs, h8, ← List.drop_drop, List.drop_left' (hl t0),
      List.drop_left' (hl t1), List.take_left' (hl t2), hv]

/-- With eight-byte qubit addresses the `int` view of the targets of `CCX` is the two
halves of the first target and the low half of the second. -/
theorem execute_ccx_wide_address :
    execute { gateWidth := 1, addrWidth := 8, gateOfId := Layout.example.gateOfId } 33 []
        [1, 2, 3] =
      .ok [.multiControlledMultiQubitNot [1, 0] [2]] := by
  rfl

/-- Every gate of the execution subset with the sizes of the table is dispatched to
the kernel call of the dispatch table; for `CCX` this is so when a qubit address
takes four bytes. -/
theorem execute_eq_dispatchTable (L : Layout) (gate : Nat) (params targets : List Nat)
    (g : StandardGate) (numParams targetSize : Nat) (hid : L.gateOfId gate = some g)
    (har : specArity g = some (numParams, targetSize)) (hp : params.length = numParams)
    (ht : targets.length = targetSize) (hw : g = .CCX → L.addrWidth = 4) :
    ∃ calls, dispatchTable g params targets = some calls ∧
      execute L gate params targets = .ok calls := by
  cases g <;> simp only [specArity, Option.some.injEq, Prod.mk.injEq, reduceCtorEq] at har <;>
    obtain ⟨rfl, rfl⟩ := har
  case CCX =>
    obtain ⟨t0, t1, t2, rfl⟩ : ∃ t0 t1 t2, targets = [t0, t1, t2] := by
      match targets, ht with
      | [t0, t1, t2], _ => exact ⟨t0, t1, t2, rfl⟩
    obtain ⟨h0, h1, h2⟩ := intAt_three L (hw rfl) t0 t1 t2
    refine ⟨_, rfl, ?_⟩
    simp [execute, hid, assertNumParamsAndTargetSize, hp, h0, h1, h2, bind, Except.bind, pure,
      Except.pure, elemAt]
  all_goals
    refine ⟨_, rfl, ?_⟩
    simp [execute, hid, assertNumParamsAndTargetSize, hp, ht, bind, Except.bind, pure,
      Except.pure]

/-! ## Theorems: the measurement mask and the probability map -/

theorem lt_of_testBit_of_lt_two_pow {x n i : Nat} (hx : x < 2 ^ n) (hi : x.testBit i = true) :
    i < n := by
  by_contra hni
  have h1 : 2 ^ n ≤ 2 ^ i := Nat.pow_le_pow_right (by decide) (Nat.le_of_not_lt hni)
  have h2 := Nat.testBit_implies_ge hi
  omega

/-- Below bit 31 the value of `(1 << q)` has bit `q` and no other. -/
theorem shiftedOne_testBit {q bit : Nat} (h : shiftedOne q = some bit) (i : Nat) (hi : i < 31) :
    bit.testBit i = decide (q = i) := by
  unfold shiftedOne at h
  split at h
  · cases h
    exact Nat.testBit_two_pow
  · split at h
    · rename_i h31
      cases h
      subst h31
      have h32 : (2 : Nat) ^ 64 - 2 ^ 31 = 2 ^ 31 * (2 ^ 33 - 1) := by decide
      rw [h32, Nat.testBit_mul_pow_two]
      have h1 : decide (i ≥ 31) = false := by simpa using hi
      have h2 : decide (31 = i) = false := by
        simp only [decide_eq_false_iff_not]
        omega
      rw [h1, h2, Bool.false_and]
    · cases h

theorem shiftedOne_le {q bit : Nat} (h : shiftedOne q = some bit) : q ≤ 31 := by
  unfold shiftedOne at h
  split at h
  · omega
  · split at h
    · omega
    · cases h

/-- Below bit 31 the mask accumulated by the driver has the bits it had and the bits
of the qubits listed. -/
theorem accumulateMask_testBit {mask result : Nat} {qubits : List Nat}
    (h : accumulateMask mask qubits = some result) (i : Nat) (hi : i < 31) :
    result.testBit i = (mask.testBit i || decide (i ∈ qubits)) := by
  induction qubits generalizing mask with
  | nil =>
    simp only [accumulateMask, Option.some.injEq] at h
    subst h
    simp
  | cons q qs ih =>
    simp only [accumulateMask] at h
    cases hq : shiftedOne q with
    | none => simp [hq] at h
    | some bit =>
      simp only [hq] at h
      rw [ih h, Nat.testBit_or, shiftedOne_testBit hq i hi]
      by_cases hqi : q = i
      · subst hqi
        simp
      · have : ¬ i = q := fun e => hqi e.symm
        simp [hqi, this]

/-- The driver accumulates a mask only when every qubit listed is at most 31. -/
theorem accumulateMask_le {mask result : Nat} {qubits : List Nat}
    (h : accumulateMask mask qubits = some result) : ∀ q ∈ qubits, q ≤ 31 := by
  induction qubits generalizing mask with
  | nil => intro q hq; simp at hq
  | cons q0 qs ih =>
    simp only [accumulateMask] at h
    cases hq : shiftedOne q0 with
    | none => simp [hq] at h
    | some bit =>
      simp only [hq] at h
      intro q hmem
      rcases List.mem_cons.1 hmem with rfl | hmem
      · exact shiftedOne_le hq
      · exact ih h q hmem

/-- The mask of the specification has the bits it started from and the bits of the
qubits listed. -/
theorem specMask_testBit (mask : Nat) (qubits : List Nat) (i : Nat) :
    (specMask mask qubits).testBit i = (mask.testBit i || decide (i ∈ qubits)) := by
  induction qubits generalizing mask with
  | nil => simp [specMask]
  | cons q qs ih =>
    have hstep : specMask mask (q :: qs) = specMask (mask ||| 2 ^ q) qs := rfl
    rw [hstep, ih, Nat.testBit_or, Nat.testBit_two_pow]
    by_cases hqi : q = i
    · subst hqi
      simp
    · have : ¬ i = q := fun e => hqi e.symm
      simp [hqi, this]

/-- On basis states of a register the driver can enumerate, masking with the mask the
driver accumulated is masking with the mask of the specification. -/
theorem and_accumulateMask {result : Nat} {qubits : List Nat}
    (h : accumulateMask 0 qubits = some result) (state : Nat) (hs : state < 2 ^ 31) :
    state &&& result = state &&& specMask 0 qubits := by
  apply Nat.eq_of_testBit_eq
  intro i
  rw [Nat.testBit_and, Nat.testBit_and]
  by_cases hi : i < 31
  · rw [accumulateMask_testBit h i hi, specMask_testBit]
  · have : state.testBit i = false :=
      Nat.testBit_lt_two_pow (Nat.lt_of_lt_of_le hs (Nat.pow_le_pow_right (by decide)
        (Nat.le_of_not_lt hi)))
    rw [this, Bool.false_and, Bool.false_and]

/-- An entry of an updated map is at the updated key or was in the map. -/
theorem mem_mapUpdate {V : Type} (f : Option V → V) (m : List (Nat × V)) (k : Nat)
    (kv : Nat × V) (h : kv ∈ mapUpdate f m k) : kv.1 = k ∨ kv ∈ m := by
  induction m with
  | nil =>
    simp only [mapUpdate, List.mem_singleton] at h
    subst h
    exact Or.inl rfl
  | cons e rest ih =>
    obtain ⟨k0, v0⟩ := e
    simp only [mapUpdate] at h
    split at h
    · rcases List.mem_cons.1 h with rfl | h
      · exact Or.inl rfl
      · exact Or.inr h
    · split at h
      · rcases List.mem_cons.1 h with rfl | h
        · exact Or.inl rfl
        · exact Or.inr (List.mem_cons_of_mem _ h)
      · rcases List.mem_cons.1 h with rfl | h
        · exact Or.inr (List.mem_cons_self _ _)
        · rcases ih h with h | h
          · exact Or.inl h
          · exact Or.inr (List.mem_cons_of_mem _ h)

/-- Updating a map keeps its keys in strictly ascending order, hence distinct. -/
theorem pairwise_mapUpdate {V : Type} (f : Option V → V) (m : List (Nat × V)) (k : Nat)
    (h : m.Pairwise (fun a b => a.1 < b.1)) :
    (mapUpdate f m k).Pairwise (fun a b => a.1 < b.1) := by
  induction m with
  | nil => simp [mapUpdate]
  | cons e rest ih =>
    obtain ⟨k0, v0⟩ := e
    rw [List.pairwise_cons] at h
    obtain ⟨hhead, htail⟩ := h
    simp only [mapUpdate]
    split
    · rename_i hlt
      refine List.pairwise_cons.2 ⟨?_, List.pairwise_cons.2 ⟨hhead, htail⟩⟩
      intro b hb
      rcases List.mem_cons.1 hb with rfl | hb
      · exact hlt
      · exact Nat.lt_trans hlt (hhead b hb)
    · split
      · rename_i heq
        subst heq
        exact List.pairwise_cons.2 ⟨hhead, htail⟩
      · rename_i hnlt hne
        refine List.pairwise_cons.2 ⟨?_, ih htail⟩
        intro b hb
        rcases mem_mapUpdate f rest k b hb with h1 | h1
        · rw [h1]
          show k0 < k
          omega
        · exact hhead b h1

theorem mapFind_eq_none_of_lt {V : Type} (m : List (Nat × V)) (k : Nat)
    (h : ∀ b ∈ m, k < b.1) : mapFind m k = none := by
  induction m with
  | nil => rfl
  | cons e rest ih =>
    obtain ⟨k0, v0⟩ := e
    have h0 : k < k0 := h (k0, v0) (List.mem_cons_self _ _)
    simp only [mapFind, if_neg (Nat.ne_of_lt h0)]
    exact ih fun b hb => h b (List.mem_cons_of_mem _ hb)

/-- Looking up a key after an update of a map with ascending keys. -/
theorem mapFind_mapUpdate {V : Type} (f : Option V → V) (m : List (Nat × V)) (k k' : Nat)
    (h : m.Pairwise (fun a b => a.1 < b.1)) :
    mapFind (mapUpdate f m k) k' =
      if k' = k then some (f (mapFind m k)) else mapFind m k' := by
  induction m with
  | nil =>
    simp only [mapUpdate, mapFind]
  | cons e rest ih =>
    obtain ⟨k0, v0⟩ := e
    rw [List.pairwise_cons] at h
    obtain ⟨hhead, htail⟩ := h
    simp only [mapUpdate]
    split
    · rename_i hlt
      have hnone : mapFind ((k0, v0) :: rest) k = none := by
        apply mapFind_eq_none_of_lt
        intro b hb
        rcases List.mem_cons.1 hb with rfl | hb
        · exact hlt
        · exact Nat.lt_trans hlt (hhead b hb)
      rw [hnone]
      rfl
    · split
      · rename_i heq
        subst heq
        by_cases h1 : k' = k <;> simp [mapFind, h1]
      · rename_i hnlt hne
        simp only [mapFind, ih htail, if_neg hne]
        by_cases h1 : k' = k0
        · subst h1
          have : ¬ k' = k := fun e => hne e.symm
          simp only [if_true, if_neg this]
        · simp only [if_neg h1]

/-- The loop over the basis states in the `Measure` case: the resulting map has
ascending keys, and under each key the probabilities of the states that are above
the threshold and masked to that key, added in the order of the loop to what the map
held. -/
theorem foldl_recordState {P : Type} (H : Host P) (s : ExecState P) (states : List Nat)
    (probs : List (Nat × P)) (h : probs.Pairwise (fun a b => a.1 < b.1)) :
    (states.foldl (recordState H s) probs).Pairwise (fun a b => a.1 < b.1) ∧
      ∀ k, mapFind (states.foldl (recordState H s) probs) k =
        ((states.filter (fun state => decide (state &&& s.measureQubits = k) &&
            H.aboveThreshold (H.getProbAmp s.trace s.qubits state))).map
          (H.getProbAmp s.trace s.qubits)).foldl
          (fun acc p => some (match acc with
            | none => p
            | some v => H.add v p)) (mapFind probs k) := by
  induction states generalizing probs with
  | nil => exact ⟨h, fun k => rfl⟩
  | cons state rest ih =>
    simp only [List.foldl_cons]
    by_cases hab : H.aboveThreshold (H.getProbAmp s.trace s.qubits state) = true
    · have hrec : recordState H s probs state =
          mapUpdate (fun old => match old with
            | none => H.getProbAmp s.trace s.qubits state
            | some v => H.add v (H.getProbAmp s.trace s.qubits state)) probs
            (state &&& s.measureQubits) := by
        simp only [recordState, hab, if_true]
      obtain ⟨hp, hk⟩ := ih (recordState H s probs state)
        (by rw [hrec]; exact pairwise_mapUpdate _ _ _ h)
      refine ⟨hp, fun k => ?_⟩
      rw [hk k, hrec, mapFind_mapUpdate _ _ _ _ h]
      by_cases hkey : state &&& s.measureQubits = k
      · subst hkey
        simp only [List.filter_cons, hab, decide_True, Bool.and_self, if_true, List.map_cons,
          List.foldl_cons]
      · have hne : ¬ k = state &&& s.measureQubits := fun e => hkey e.symm
        simp only [List.filter_cons, hkey, decide_False, Bool.false_and, if_neg hne]
        rfl
    · have hrec : recordState H s probs state = probs := by
        simp only [recordState, hab]
        rfl
      obtain ⟨hp, hk⟩ := ih (recordState H s probs state) (by rw [hrec]; exact h)
      refine ⟨hp, fun k => ?_⟩
      rw [hk k, hrec]
      simp only [List.filter_cons, hab, Bool.and_false]
      rfl

/-- A key of the map after the loop over the basis states was a key before or is a
basis state of the loop masked by `measureQubits`. -/
theorem mem_foldl_recordState {P : Type} (H : Host P) (s : ExecState P) (states : List Nat)
    (probs : List (Nat × P)) (kv : Nat × P)
    (h : kv ∈ states.foldl (recordState H s) probs) :
    kv ∈ probs ∨ ∃ state ∈ states, kv.1 = state &&& s.measureQubits := by
  induction states generalizing probs with
  | nil => exact Or.inl h
  | cons state rest ih =>
    simp only [List.foldl_cons] at h
    rcases ih _ h with h1 | ⟨st, hst, hkv⟩
    · simp only [recordState] at h1
      split at h1
      · rcases mem_mapUpdate _ _ _ _ h1 with h2 | h2
        · exact Or.inr ⟨state, List.mem_cons_self _ _, h2⟩
        · exact Or.inl h2
      · exact Or.inl h1
    · exact Or.inr ⟨st, List.mem_cons_of_mem _ hst, hkv⟩

/-- What a `Measure` instruction that completes has done. -/
theorem primitiveInstrExecutor_measure {P : Type} (H : Host P) (s s' : ExecState P)
    (opcode : Nat) (params : List Nat)
    (hop : PrimitiveOpCode.ofValue opcode = some .Measure)
    (h : primitiveInstrExecutor H s opcode params = .ok s') :
    s.isInitialized = true ∧ H.numQubitsRepresented s.trace s.qubits < 31 ∧
      ∃ mask, accumulateMask s.measureQubits params = some mask ∧
        s' = { s with
          measureQubits := mask
          probs := (List.range (2 ^ H.numQubitsRepresented s.trace s.qubits)).foldl
            (recordState H { s with measureQubits := mask }) s.probs } := by
  simp only [primitiveInstrExecutor, hop] at h
  split at h
  · cases h
  · rename_i hinit
    cases hacc : accumulateMask s.measureQubits params with
    | none => simp [hacc] at h
    | some mask =>
      simp only [hacc] at h
      split at h
      · cases h
      · rename_i hn
        simp only [Except.ok.injEq] at h
        refine ⟨by simpa using hinit, by omega, mask, rfl, h.symm⟩

/-- An `Alloc` or `Reset` instruction that completes leaves the mask and the
probability map as they were. -/
theorem primitiveInstrExecutor_other {P : Type} (H : Host P) (s s' : ExecState P)
    (opcode : Nat) (params : List Nat)
    (hop : PrimitiveOpCode.ofValue opcode ≠ some .Measure)
    (h : primitiveInstrExecutor H s opcode params = .ok s') :
    s'.measureQubits = s.measureQubits ∧ s'.probs = s.probs := by
  simp only [primitiveInstrExecutor] at h
  cases hv : PrimitiveOpCode.ofValue opcode with
  | none => simp [hv] at h
  | some code =>
    cases code with
    | Measure => exact absurd hv hop
    | Reset =>
      simp only [hv, Except.ok.injEq] at h
      subst h
      exact ⟨rfl, rfl⟩
    | Alloc =>
      simp only [hv] at h
      split at h
      · cases h
      · simp only [Except.ok.injEq] at h
        subst h
        exact ⟨rfl, rfl⟩

/-- A gate instruction that completes changes the trace only. -/
theorem standardGateInstrExecutor_fields {P : Type} (L : Layout) (s s' : ExecState P)
    (gate : Nat) (params targets : List Nat)
    (h : standardGateInstrExecutor L s gate params targets = .ok s') :
    s'.measureQubits = s.measureQubits ∧ s'.probs = s.probs ∧ s'.qubits = s.qubits ∧
      s'.isInitialized = s.isInitialized := by
  simp only [standardGateInstrExecutor] at h
  split at h
  · cases h
  · cases hx : execute L gate params targets with
    | error a => simp [hx] at h
    | ok calls =>
      simp only [hx, Except.ok.injEq] at h
      subst h
      exact ⟨rfl, rfl, rfl, rfl⟩

/-- Along a walk that completes: below bit 31 the driver's mask agrees with the mask
of the specification, every key of the probability map has its bits below 31 and
inside that mask, and the mask has no bit above 31. -/
theorem forEach_mask_invariant {P : Type} (H : Host P) (L : Layout) (instrs : List Instruction)
    (s s' : ExecState P) (M : Nat) (hrun : forEach H L s instrs = .ok s')
    (h1 : ∀ i < 31, s.measureQubits.testBit i = M.testBit i)
    (h2 : ∀ kv ∈ s.probs, ∀ i, kv.1.testBit i = true → i < 31 ∧ M.testBit i = true)
    (h3 : ∀ i, M.testBit i = true → i < 32) :
    (∀ i < 31, s'.measureQubits.testBit i = (measureMask M instrs).testBit i) ∧
      (∀ kv ∈ s'.probs, ∀ i, kv.1.testBit i = true →
        i < 31 ∧ (measureMask M instrs).testBit i = true) ∧
      ∀ i, (measureMask M instrs).testBit i = true → i < 32 := by
  induction instrs generalizing s M with
  | nil =>
    simp only [forEach, Except.ok.injEq] at hrun
    subst hrun
    exact ⟨h1, h2, h3⟩
  | cons instr rest ih =>
    cases instr with
    | standard gate params targets =>
      simp only [forEach] at hrun
      cases hstep : standardGateInstrExecutor L s gate params targets with
      | error a => simp [hstep] at hrun
      | ok s1 =>
        simp only [hstep] at hrun
        obtain ⟨hm, hp, -, -⟩ := standardGateInstrExecutor_fields L s s1 gate params targets hstep
        exact ih s1 M hrun (by rw [hm]; exact h1) (by rw [hp]; exact h2) h3
    | primitive opcode params =>
      simp only [forEach] at hrun
      cases hstep : primitiveInstrExecutor H s opcode params with
      | error a => simp [hstep] at hrun
      | ok s1 =>
        simp only [hstep] at hrun
        by_cases hop : PrimitiveOpCode.ofValue opcode = some .Measure
        · obtain ⟨-, hn, mask, hacc, rfl⟩ :=
            primitiveInstrExecutor_measure H s s1 opcode params hop hstep
          have hM : measureMask M (.primitive opcode params :: rest) =
              measureMask (specMask M params) rest := by
            simp only [measureMask, hop, if_true]
          rw [hM]
          have hbits : ∀ i < 31, mask.testBit i = (specMask M params).testBit i := by
            intro i hi
            rw [accumulateMask_testBit hacc i hi, specMask_testBit, h1 i hi]
          refine ih _ (specMask M params) hrun hbits ?_ ?_
          · intro kv hkv i hi
            rcases mem_foldl_recordState H _ _ _ kv hkv with hold | ⟨state, hst, hkey⟩
            · obtain ⟨hlt, hMi⟩ := h2 kv hold i hi
              refine ⟨hlt, ?_⟩
              rw [specMask_testBit, hMi, Bool.true_or]
            · rw [hkey, Nat.testBit_and, Bool.and_eq_true] at hi
              have hlt : i < H.numQubitsRepresented s.trace s.qubits :=
                lt_of_testBit_of_lt_two_pow (List.mem_range.1 hst) hi.1
              have hi31 : i < 31 := by omega
              refine ⟨hi31, ?_⟩
              rw [← hbits i hi31]
              exact hi.2
          · intro i hi
            rw [specMask_testBit, Bool.or_eq_true] at hi
            rcases hi with hi | hi
            · exact h3 i hi
            · have := accumulateMask_le hacc i (by simpa using hi)
              omega
        · obtain ⟨hm, hp⟩ := primitiveInstrExecutor_other H s s1 opcode params hop hstep
          have hM : measureMask M (.primitive opcode params :: rest) = measureMask M rest := by
            simp only [measureMask, hop, if_false]
          rw [hM]
          exact ih s1 M hrun (by rw [hm]; exact h1) (by rw [hp]; exact h2) h3

/-- A value whose bits all lie in a mask has no bit in the 64-bit complement of the
mask. -/
theorem and_complement64_eq_zero (v M : Nat)
    (h : ∀ i, v.testBit i = true → i < 31 ∧ M.testBit i = true) :
    v &&& complement64 M = 0 := by
  apply Nat.eq_of_testBit_eq
  intro i
  rw [Nat.zero_testBit, complement64, Nat.testBit_and, Nat.testBit_xor,
    Nat.testBit_two_pow_sub_one]
  cases hv : v.testBit i with
  | false => rfl
  | true =>
    obtain ⟨hlt, hM⟩ := h i hv
    have : decide (i < 64) = true := by
      simp only [decide_eq_true_eq]
      omega
    rw [hM, this]
    rfl

/-- Walking a concatenation is walking its two parts in turn. -/
theorem forEach_append {P : Type} (H : Host P) (L : Layout) (a b : List Instruction)
    (s : ExecState P) :
    forEach H L s (a ++ b) = match forEach H L s a with
      | .error e => .error e
      | .ok s' => forEach H L s' b := by
  induction a generalizing s with
  | nil => rfl
  | cons instr rest ih =>
    cases instr with
    | primitive opcode params =>
      simp only [List.cons_append, forEach]
      cases primitiveInstrExecutor H s opcode params with
      | error e => rfl
      | ok s1 => exact ih s1
    | standard gate params targets =>
      simp only [List.cons_append, forEach]
      cases standardGateInstrExecutor L s gate params targets with
      | error e => rfl
      | ok s1 => exact ih s1

/-- A walk over gate instructions that completes changes the trace only. -/
theorem forEach_gates_fields {P : Type} (H : Host P) (L : Layout) (gates : List Instruction)
    (s s' : ExecState P)
    (hgates : ∀ i ∈ gates, ∃ gate params targets, i = Instruction.standard gate params targets)
    (h : forEach H L s gates = .ok s') :
    s'.measureQubits = s.measureQubits ∧ s'.probs = s.probs ∧ s'.qubits = s.qubits ∧
      s'.isInitialized = s.isInitialized := by
  induction gates generalizing s with
  | nil =>
    simp only [forEach, Except.ok.injEq] at h
    subst h
    exact ⟨rfl, rfl, rfl, rfl⟩
  | cons instr rest ih =>
    obtain ⟨gate, params, targets, rfl⟩ := hgates instr (List.mem_cons_self _ _)
    simp only [forEach] at h
    cases hstep : standardGateInstrExecutor L s gate params targets with
    | error a => simp [hstep] at h
    | ok s1 =>
      simp only [hstep] at h
      obtain ⟨a1, a2, a3, a4⟩ := standardGateInstrExecutor_fields L s s1 gate params targets hstep
      obtain ⟨b1, b2, b3, b4⟩ := ih s1 (fun i hi => hgates i (List.mem_cons_of_mem _ hi)) h
      exact ⟨b1.trans a1, b2.trans a2, b3.trans a3, b4.trans a4⟩

/-- The probability map of a program `Alloc n; gates; Measure Q` that completes, in
terms of the kernel calls made before the `Measure` and the number of qubits the
kernel reports for the register. -/
theorem executeOnce_single_measure {P : Type} (H : Host P) (L : Layout) (n : Nat)
    (gates : List Instruction) (Q : List Nat) (probs : List (Nat × P))
    (trace : List KernelCall)
    (hgates : ∀ i ∈ gates, ∃ gate params targets, i = Instruction.standard gate params targets)
    (hrun : executeOnce H L (.primitive 0 [n] :: (gates ++ [.primitive 2 Q])) =
      .ok (probs, trace)) :
    probs.Pairwise (fun a b => a.1 < b.1) ∧
      H.numQubitsRepresented trace.dropLast (some 0) < 31 ∧
      ∀ k, mapFind probs k =
        sumInOrder H.add
          (((List.range (2 ^ H.numQubitsRepresented trace.dropLast (some 0))).filter
            (fun state => decide (state &&& specMask 0 Q = k) &&
              H.aboveThreshold (H.getProbAmp trace.dropLast (some 0) state))).map
            (H.getProbAmp trace.dropLast (some 0))) := by
  simp only [executeOnce] at hrun
  cases hwalk : forEach H L (ExecState.init P)
      (.primitive 0 [n] :: (gates ++ [.primitive 2 Q])) with
  | error a => simp [hwalk] at hrun
  | ok s3 =>
    simp only [hwalk, Except.ok.injEq, Prod.mk.injEq] at hrun
    obtain ⟨hprobs, htrace⟩ := hrun
    have halloc : forEach H L (ExecState.init P)
        (.primitive 0 [n] :: (gates ++ [.primitive 2 Q])) =
        forEach H L
          { trace := [.createQureg (toInt n), .initZeroState (some 0)]
            qubits := some 0
            isInitialized := true
            measureQubits := 0
            probs := [] } (gates ++ [.primitive 2 Q]) := rfl
    rw [halloc, forEach_append] at hwalk
    cases hg : forEach H L
        { trace := [.createQureg (toInt n), .initZeroState (some 0)]
          qubits := some 0
          isInitialized := true
          measureQubits := 0
          probs := [] } gates with
    | error a => simp [hg] at hwalk
    | ok s2 =>
      simp only [hg, forEach] at hwalk
      obtain ⟨hmq, hpr, hqu, -⟩ := forEach_gates_fields H L gates _ s2 hgates hg
      simp only at hmq hpr hqu
      cases hm : primitiveInstrExecutor H s2 2 Q with
      | error a => simp [hm] at hwalk
      | ok s3' =>
        simp only [hm, Except.ok.injEq] at hwalk
        subst hwalk
        obtain ⟨-, hn, mask, hacc, rfl⟩ := primitiveInstrExecutor_measure H s2 s3' 2 Q rfl hm
        rw [hmq] at hacc
        simp only at hprobs htrace
        have hdrop : trace.dropLast = s2.trace := by
          rw [← htrace, List.dropLast_concat]
        rw [hdrop, ← hqu, ← hprobs]
        obtain ⟨hpair, hfind⟩ := foldl_recordState H { s2 with measureQubits := mask }
          (List.range (2 ^ H.numQubitsRepresented s2.trace s2.qubits)) s2.probs
          (by rw [hpr]; exact List.Pairwise.nil)
        refine ⟨hpair, hn, fun k => ?_⟩
        rw [hfind k, hpr]
        simp only [sumInOrder, mapFind]
        congr 2
        apply List.filter_congr
        intro state hstate
        have hlt : state < 2 ^ 31 :=
          Nat.lt_of_lt_of_le (List.mem_range.1 hstate) (Nat.pow_le_pow_right (by decide) hn.le)
        rw [and_accumulateMask hacc state hlt]

/-! ## Theorems: the sampling stage -/

/-- The tally `measurements[m] = 1` or `measurements[m]++`. -/
theorem mapUpdate_tally_sum (measurements : List (Nat × Nat)) (m : Nat) :
    ((mapUpdate (fun old => match old with
        | none => 1
        | some c => c + 1) measurements m).map Prod.snd).sum =
      (measurements.map Prod.snd).sum + 1 := by
  induction measurements with
  | nil => simp [mapUpdate]
  | cons kv rest ih =>
    obtain ⟨k, v⟩ := kv
    simp only [mapUpdate]
    split
    · simp only [List.map_cons, List.sum_cons]
      omega
    · split
      · simp only [List.map_cons, List.sum_cons]
        omega
      · simp only [List.map_cons, List.sum_cons, ih]
        omega

/-- A draw that ends uses up one generator output that is in range, after any number
that are not, and the index it returns is in range. -/
theorem drawIndex_some {size : Nat} {rng rng' : List Nat} {idx : Nat}
    (h : drawIndex size rng = some (idx, rng')) :
    idx < size ∧
      rng.countP (fun r => r % 2 ^ 16 < size) = rng'.countP (fun r => r % 2 ^ 16 < size) + 1 := by
  induction rng with
  | nil => simp [drawIndex] at h
  | cons r rs ih =>
    simp only [drawIndex] at h
    split at h
    · rename_i hge
      obtain ⟨h1, h2⟩ := ih h
      refine ⟨h1, ?_⟩
      rw [List.countP_cons_of_neg _ _ (by simpa using hge), h2]
    · rename_i hlt
      simp only [Option.some.injEq, Prod.mk.injEq] at h
      obtain ⟨rfl, rfl⟩ := h
      refine ⟨by omega, ?_⟩
      rw [List.countP_cons_of_pos _ _ (by simpa using hlt)]

/-- A draw does not end exactly when no generator output is in range. -/
theorem drawIndex_none {size : Nat} {rng : List Nat} (h : drawIndex size rng = none) :
    rng.countP (fun r => r % 2 ^ 16 < size) = 0 := by
  induction rng with
  | nil => rfl
  | cons r rs ih =>
    simp only [drawIndex] at h
    split at h
    · rename_i hge
      rw [List.countP_cons_of_neg _ _ (by simpa using hge), ih h]
    · cases h

/-- On an empty `states` array no draw is ever in range. -/
theorem drawIndex_zero (rng : List Nat) : drawIndex 0 rng = none := by
  induction rng with
  | nil => rfl
  | cons r rs ih => simp only [drawIndex, ge_iff_le, Nat.zero_le, if_true, ih]

/-- A draw that ends returns the first generator output that is in range modulo
`2 ^ 16`; the outputs before it are out of range and are dropped. -/
theorem drawIndex_spec {size : Nat} {rng rng' : List Nat} {idx : Nat}
    (h : drawIndex size rng = some (idx, rng')) :
    ∃ skipped r, rng = skipped ++ r :: rng' ∧ idx = r % 2 ^ 16 ∧
      ∀ x ∈ skipped, size ≤ x % 2 ^ 16 := by
  induction rng with
  | nil => simp [drawIndex] at h
  | cons r rs ih =>
    simp only [drawIndex] at h
    split at h
    · rename_i hge
      obtain ⟨skipped, r', hrs, hidx, hsk⟩ := ih h
      refine ⟨r :: skipped, r', by rw [hrs, List.cons_append], hidx, ?_⟩
      intro x hx
      rcases List.mem_cons.1 hx with rfl | hx
      · exact hge
      · exact hsk x hx
    · simp only [Option.some.injEq, Prod.mk.injEq] at h
      obtain ⟨rfl, rfl⟩ := h
      exact ⟨[], r, rfl, rfl, fun x hx => by simp at hx⟩

/-- One iteration of the sampling loop: the draw, the tally `measurements[m] = 1` or
`measurements[m]++`, and the increment of the counter. -/
theorem sampleShots_succ (states : List Nat) (remaining i : Nat) (rng : List Nat)
    (measurements : List (Nat × Nat)) :
    sampleShots states (remaining + 1) i rng measurements =
      match drawIndex states.length rng with
      | none => none
      | some (idx, rng') =>
        if i + 1 > 2 ^ 31 - 1 then some (.error .counterOverflow)
        else
          sampleShots states remaining (i + 1) rng' (mapUpdate (fun old => match old with
            | none => 1
            | some c => c + 1) measurements (states.getD idx 0)) := rfl

/-- Every index at which the sampling loop reads `states` is in range. -/
theorem sampleReads_lt (size remaining i : Nat) (rng : List Nat) :
    ∀ idx ∈ sampleReads size remaining i rng, idx < size := by
  induction remaining generalizing i rng with
  | zero => intro idx h; simp [sampleReads] at h
  | succ remaining ih =>
    intro idx h
    simp only [sampleReads] at h
    cases hd : drawIndex size rng with
    | none => simp [hd] at h
    | some r =>
      obtain ⟨j, rng'⟩ := r
      simp only [hd] at h
      split at h
      · rw [List.mem_singleton.1 h]
        exact (drawIndex_some hd).1
      · rcases List.mem_cons.1 h with rfl | h
        · exact (drawIndex_some hd).1
        · exact ih _ rng' idx h

/-- The number of reads of the sampling loop: it stops at the end of the shots, at the
iteration whose increment overflows the counter, or when the generator outputs hold no
further value in range, whichever comes first. -/
theorem sampleReads_length (size remaining i : Nat) (rng : List Nat) (hi : i ≤ 2 ^ 31 - 1) :
    (sampleReads size remaining i rng).length =
      min (min remaining (2 ^ 31 - i)) (rng.countP (fun r => r % 2 ^ 16 < size)) := by
  induction remaining generalizing i rng with
  | zero => simp [sampleReads]
  | succ remaining ih =>
    simp only [sampleReads]
    cases hd : drawIndex size rng with
    | none =>
      have := drawIndex_none hd
      simp only [this, List.length_nil]
      omega
    | some r =>
      obtain ⟨j, rng'⟩ := r
      have hc := (drawIndex_some hd).2
      simp only []
      split
      · simp only [List.length_singleton, hc]
        omega
      · rw [List.length_cons, ih _ rng' (by omega), hc]
        omega

/-- The number of reads of the sampling loop entered with the counter at 0. -/
theorem sampleReads_length_zero (size shots : Nat) (rng : List Nat) :
    (sampleReads size shots 0 rng).length ≤ shots ∧
      (sampleReads size shots 0 rng).length ≤ 2 ^ 31 ∧
      (sampleReads size shots 0 rng).length ≤ rng.countP (fun r => r % 2 ^ 16 < size) ∧
      ((sampleReads size shots 0 rng).length = shots ∨
        (sampleReads size shots 0 rng).length = 2 ^ 31 ∨
        (sampleReads size shots 0 rng).length = rng.countP (fun r => r % 2 ^ 16 < size)) := by
  have h := sampleReads_length size shots 0 rng (by omega)
  rw [Nat.sub_zero] at h
  generalize (sampleReads size shots 0 rng).length = len at h
  generalize rng.countP (fun r => r % 2 ^ 16 < size) = c at h
  generalize (2 : Nat) ^ 31 = top at h
  subst h
  simp only [Nat.min_def]
  split <;> split <;> omega

/-- The sampling loop tallies the elements of `states` found at the indices of
`sampleReads`. It ends with the tallies when `shots` reads have been made and the
counter has stayed in range, in the overflow of the counter when the read of the
iteration `i = 2 ^ 31 - 1` has been made, and it is still drawing otherwise. -/
theorem sampleShots_eq_reads (states : List Nat) (remaining i : Nat) (rng : List Nat)
    (measurements : List (Nat × Nat)) (hi : i ≤ 2 ^ 31 - 1) :
    sampleShots states remaining i rng measurements =
      if (sampleReads states.length remaining i rng).length = remaining ∧
          i + remaining ≤ 2 ^ 31 - 1 then
        some (.ok ((sampleReads states.length remaining i rng).foldl
          (fun acc idx => mapUpdate (fun old => match old with
            | none => 1
            | some c => c + 1) acc (states.getD idx 0)) measurements))
      else if i + (sampleReads states.length remaining i rng).length = 2 ^ 31 then
        some (.error .counterOverflow)
      else none := by
  induction remaining generalizing i rng measurements with
  | zero =>
    have hr : sampleReads states.length 0 i rng = [] := rfl
    have hs : sampleShots states 0 i rng measurements = some (.ok measurements) := rfl
    rw [hr, hs, if_pos ⟨rfl, by omega⟩]
    rfl
  | succ remaining ih =>
    cases hd : drawIndex states.length rng with
    | none =>
      have hr : sampleReads states.length (remaining + 1) i rng = [] := by
        simp only [sampleReads, hd]
      have hs : sampleShots states (remaining + 1) i rng measurements = none := by
        rw [sampleShots_succ, hd]
      rw [hr, hs, List.length_nil, if_neg (by omega), if_neg (by omega)]
    | some r =>
      obtain ⟨j, rng'⟩ := r
      by_cases hov : i + 1 > 2 ^ 31 - 1
      · have hr : sampleReads states.length (remaining + 1) i rng = [j] := by
          simp only [sampleReads, hd, if_pos hov]
        have hs : sampleShots states (remaining + 1) i rng measurements =
            some (.error .counterOverflow) := by
          rw [sampleShots_succ, hd]
          exact if_pos hov
        rw [hr, hs, List.length_singleton, if_neg (by omega), if_pos (by omega)]
      · have hr : sampleReads states.length (remaining + 1) i rng =
            j :: sampleReads states.length remaining (i + 1) rng' := by
          simp only [sampleReads, hd, if_neg hov]
        have hs : sampleShots states (remaining + 1) i rng measurements =
            sampleShots states remaining (i + 1) rng' (mapUpdate (fun old => match old with
              | none => 1
              | some c => c + 1) measurements (states.getD j 0)) := by
          rw [sampleShots_succ, hd]
          exact if_neg hov
        have e1 : ((sampleReads states.length remaining (i + 1) rng').length + 1 = remaining + 1 ∧
            i + (remaining + 1) ≤ 2 ^ 31 - 1) ↔
            ((sampleReads states.length remaining (i + 1) rng').length = remaining ∧
              i + 1 + remaining ≤ 2 ^ 31 - 1) := by
          constructor
          · rintro ⟨h1, h2⟩
            exact ⟨by omega, by omega⟩
          · rintro ⟨h1, h2⟩
            exact ⟨by omega, by omega⟩
        have e2 : i + ((sampleReads states.length remaining (i + 1) rng').length + 1) = 2 ^ 31 ↔
            i + 1 + (sampleReads states.length remaining (i + 1) rng').length = 2 ^ 31 := by
          omega
        rw [hr, hs, ih (i + 1) rng' _ (by omega), List.length_cons, List.foldl_cons]
        simp only [e1, e2]

/-- The tallies of a sequence of reads sum to the sum before them plus their number. -/
theorem foldl_tally_sum (states reads : List Nat) (measurements : List (Nat × Nat)) :
    ((reads.foldl (fun acc idx => mapUpdate (fun old => match old with
        | none => 1
        | some c => c + 1) acc (states.getD idx 0)) measurements).map Prod.snd).sum =
      (measurements.map Prod.snd).sum + reads.length := by
  induction reads generalizing measurements with
  | nil => rfl
  | cons idx rest ih =>
    rw [List.foldl_cons, ih, mapUpdate_tally_sum, List.length_cons]
    omega

/-- The sampling loop, entered with the counter at 0, ends with tallies exactly when
the shot count is at most `2 ^ 31 - 1` and the generator outputs hold at least `shots`
values in range. -/
theorem sampleShots_isOk (states : List Nat) (shots : Nat) (rng : List Nat)
    (measurements : List (Nat × Nat)) :
    (∃ result, sampleShots states shots 0 rng measurements = some (.ok result)) ↔
      shots ≤ 2 ^ 31 - 1 ∧ shots ≤ rng.countP (fun r => r % 2 ^ 16 < states.length) := by
  have hlen := sampleReads_length_zero states.length shots rng
  rw [sampleShots_eq_reads states shots 0 rng measurements (by omega)]
  constructor
  · rintro ⟨result, h⟩
    split at h
    · rename_i hc
      omega
    · split at h <;> cases h
  · intro hc
    rw [if_pos (by omega)]
    exact ⟨_, rfl⟩

/-- When the sampling loop ends with tallies it has added `shots` to their sum. -/
theorem sampleShots_sum (states : List Nat) (shots : Nat) (rng : List Nat)
    (measurements result : List (Nat × Nat))
    (h : sampleShots states shots 0 rng measurements = some (.ok result)) :
    (result.map Prod.snd).sum = (measurements.map Prod.snd).sum + shots := by
  rw [sampleShots_eq_reads states shots 0 rng measurements (by omega)] at h
  split at h
  · rename_i hc
    simp only [Option.some.injEq, Except.ok.injEq] at h
    rw [← h, foldl_tally_sum, hc.1]
  · split at h <;> cases h

/-- With an empty probability map and a positive shot count the sampling loop does
not finish, whatever the generator outputs. -/
theorem sample_nil {P : Type} (H : Host P) (shots : Nat) (rng : List Nat) (h : 0 < shots) :
    sample H [] shots rng = none := by
  have hsh : H.shuffle (buildStates H []) = [] := (H.shuffle_perm _).eq_nil
  obtain ⟨n, rfl⟩ : ∃ n, shots = n + 1 := ⟨shots - 1, by omega⟩
  simp only [sample, hsh, sampleShots, List.length_nil, drawIndex_zero]

/-- The keys tallied by the sampling loop are elements of `states`. -/
theorem sampleShots_keys (states : List Nat) (Q : Nat → Prop) (hst : ∀ x ∈ states, Q x)
    (remaining i : Nat) (rng : List Nat) (measurements result : List (Nat × Nat))
    (hm : ∀ kv ∈ measurements, Q kv.1)
    (h : sampleShots states remaining i rng measurements = some (.ok result)) :
    ∀ kv ∈ result, Q kv.1 := by
  induction remaining generalizing i rng measurements with
  | zero =>
    simp only [sampleShots, Option.some.injEq, Except.ok.injEq] at h
    subst h
    exact hm
  | succ remaining ih =>
    rw [sampleShots_succ] at h
    cases hd : drawIndex states.length rng with
    | none => simp [hd] at h
    | some r =>
      obtain ⟨idx, rng'⟩ := r
      simp only [hd] at h
      split at h
      · cases h
      · refine ih _ rng' _ ?_ h
        intro kv hkv
        rcases mem_mapUpdate _ _ _ _ hkv with hk | hk
        · rw [hk, List.getD_eq_getElem _ _ (drawIndex_some hd).1]
          exact hst _ (List.getElem_mem _)
        · exact hm kv hk

/-- The tallies of reads that all find the value `v`. -/
theorem foldl_tally_const (states : List Nat) (v : Nat) (reads : List Nat)
    (hget : ∀ idx ∈ reads, states.getD idx 0 = v) :
    (∀ c, reads.foldl (fun acc idx => mapUpdate (fun old => match old with
        | none => 1
        | some c => c + 1) acc (states.getD idx 0)) [(v, c)] = [(v, c + reads.length)]) ∧
      (reads ≠ [] → reads.foldl (fun acc idx => mapUpdate (fun old => match old with
        | none => 1
        | some c => c + 1) acc (states.getD idx 0)) [] = [(v, reads.length)]) := by
  have key : ∀ (reads : List Nat), (∀ idx ∈ reads, states.getD idx 0 = v) →
      ∀ c, reads.foldl (fun acc idx => mapUpdate (fun old => match old with
        | none => 1
        | some c => c + 1) acc (states.getD idx 0)) [(v, c)] = [(v, c + reads.length)] := by
    intro reads
    induction reads with
    | nil => intro _ c; rfl
    | cons idx rest ih =>
      intro hget c
      rw [List.foldl_cons, hget idx (List.mem_cons_self _ _)]
      simp only [mapUpdate, lt_irrefl, if_false, if_true]
      rw [ih (fun j hj => hget j (List.mem_cons_of_mem _ hj)), List.length_cons]
      congr 2
      omega
  refine ⟨key reads hget, fun hne => ?_⟩
  cases reads with
  | nil => exact absurd rfl hne
  | cons idx rest =>
    rw [List.foldl_cons, hget idx (List.mem_cons_self _ _)]
    simp only [mapUpdate]
    rw [key rest (fun j hj => hget j (List.mem_cons_of_mem _ hj)), List.length_cons]
    congr 2
    omega

/-- The array `states` built from a single entry holds that entry's value only, as
does any permutation of it. -/
theorem buildStates_single {P : Type} (H : Host P) (v : Nat) (p : P) :
    (∀ x ∈ H.shuffle (buildStates H [(v, p)]), x = v) ∧
      (H.shuffle (buildStates H [(v, p)])).length = H.copies p := by
  have hb : buildStates H [(v, p)] = List.replicate (H.copies p) v := by
    simp [buildStates]
  constructor
  · intro x hx
    have := (H.shuffle_perm _).mem_iff.1 hx
    rw [hb] at this
    exact (List.mem_replicate.1 this).2
  · rw [(H.shuffle_perm _).length_eq, hb, List.length_replicate]

/-- The sampling stage on a single-entry probability map, for a positive shot count of
at most `2 ^ 31 - 1`: when the generator outputs let it end, all the shots are tallied
on the entry's value. -/
theorem sample_single {P : Type} (H : Host P) (v : Nat) (p : P) (shots : Nat) (rng : List Nat)
    (hs : shots + 1 ≤ 2 ^ 31 - 1) :
    sample H [(v, p)] (shots + 1) rng =
      if shots + 1 ≤ rng.countP (fun r => r % 2 ^ 16 < H.copies p) then
        some (.ok { shots := shots + 1
                    result_size := 1
                    measurements := some [{ value := v, count := shots + 1 }] })
      else none := by
  obtain ⟨hall, hlen⟩ := buildStates_single H v p
  have hrl := sampleReads_length_zero (H.shuffle (buildStates H [(v, p)])).length (shots + 1) rng
  have hget : ∀ idx ∈ sampleReads (H.shuffle (buildStates H [(v, p)])).length (shots + 1) 0 rng,
      (H.shuffle (buildStates H [(v, p)])).getD idx 0 = v := by
    intro idx hidx
    rw [List.getD_eq_getElem _ _ (sampleReads_lt _ _ _ _ idx hidx)]
    exact hall _ (List.getElem_mem _)
  have hc : rng.countP (fun r => r % 2 ^ 16 < (H.shuffle (buildStates H [(v, p)])).length) =
      rng.countP (fun r => r % 2 ^ 16 < H.copies p) := by rw [hlen]
  simp only [sample]
  rw [sampleShots_eq_reads _ _ _ _ _ (by omega)]
  by_cases hle : shots + 1 ≤ rng.countP (fun r => r % 2 ^ 16 < H.copies p)
  · have hl : (sampleReads (H.shuffle (buildStates H [(v, p)])).length (shots + 1) 0 rng).length =
        shots + 1 := by omega
    have hne : sampleReads (H.shuffle (buildStates H [(v, p)])).length (shots + 1) 0 rng ≠ [] := by
      intro e
      rw [e] at hl
      cases hl
    rw [if_pos ⟨hl, by omega⟩, if_pos hle, (foldl_tally_const _ v _ hget).2 hne, hl]
    rfl
  · rw [if_neg (by omega), if_neg (by omega), if_neg hle]

/-- The report of the sampling stage has the shot count given, which is at most
`2 ^ 31 - 1`, and entry counts that sum to it. -/
theorem sample_report_counts {P : Type} (H : Host P) (probs : List (Nat × P)) (shots : Nat)
    (rng : List Nat) (report : MeasurementResult)
    (h : sample H probs shots rng = some (.ok report)) :
    shots ≤ 2 ^ 31 - 1 ∧ report.shots = shots ∧
      ∃ entries, report.measurements = some entries ∧
        report.result_size = entries.length ∧
        (entries.map MeasurementResultEntry.count).sum = shots := by
  simp only [sample] at h
  cases hs : sampleShots (H.shuffle (buildStates H probs)) shots 0 rng [] with
  | none => simp [hs] at h
  | some r =>
    cases r with
    | error u => simp [hs] at h
    | ok result =>
      simp only [hs, Option.some.injEq, Except.ok.injEq] at h
      subst h
      refine ⟨((sampleShots_isOk _ shots rng []).1 ⟨result, hs⟩).1, rfl, _, rfl, by simp, ?_⟩
      have := sampleShots_sum _ _ _ _ _ hs
      simpa [List.map_map, Function.comp_def] using this

/-- The sampling stage emits a report exactly when the shot count is at most
`2 ^ 31 - 1` and the generator outputs hold at least `shots` values in range modulo
`2 ^ 16`. -/
theorem sample_isOk {P : Type} (H : Host P) (probs : List (Nat × P)) (shots : Nat)
    (rng : List Nat) :
    (∃ report, sample H probs shots rng = some (.ok report)) ↔
      shots ≤ 2 ^ 31 - 1 ∧
        shots ≤ rng.countP (fun r => r % 2 ^ 16 < (buildStates H probs).length) := by
  rw [← (H.shuffle_perm (buildStates H probs)).length_eq, ← sampleShots_isOk _ _ _ []]
  simp only [sample]
  cases sampleShots (H.shuffle (buildStates H probs)) shots 0 rng [] with
  | none => simp
  | some r =>
    cases r with
    | error u => simp
    | ok result => simp

/-- Every value of the report is a key of the probability map. -/
theorem sample_values {P : Type} (H : Host P) (probs : List (Nat × P)) (shots : Nat)
    (rng : List Nat) (report : MeasurementResult) (entries : List MeasurementResultEntry)
    (h : sample H probs shots rng = some (.ok report)) (he : report.measurements = some entries) :
    ∀ e ∈ entries, ∃ kv ∈ probs, kv.1 = e.value := by
  simp only [sample] at h
  cases hs : sampleShots (H.shuffle (buildStates H probs)) shots 0 rng [] with
  | none => simp [hs] at h
  | some r =>
    cases r with
    | error u => simp [hs] at h
    | ok result =>
      simp only [hs, Option.some.injEq, Except.ok.injEq] at h
      subst h
      simp only [Option.some.injEq] at he
      subst he
      have hst : ∀ x ∈ H.shuffle (buildStates H probs), ∃ kv ∈ probs, kv.1 = x := by
        intro x hx
        have hx' := (H.shuffle_perm _).mem_iff.1 hx
        simp only [buildStates, List.mem_flatMap] at hx'
        obtain ⟨kv, hkv, hrep⟩ := hx'
        exact ⟨kv, hkv, (List.mem_replicate.1 hrep).2.symm⟩
      have hkeys := sampleShots_keys _ (fun x => ∃ kv ∈ probs, kv.1 = x) hst shots 0 rng []
        result (by intro kv hkv; simp at hkv) hs
      intro e hmem
      obtain ⟨kv, hkv, rfl⟩ := List.mem_map.1 hmem
      exact hkeys kv hkv

theorem sumInOrder_eq_none {P : Type} (add : P → P → P) (values : List P) :
    sumInOrder add values = none ↔ values = [] := by
  have hsome : ∀ (l : List P) (x : P), ∃ y, l.foldl (fun acc p => some (match acc with
      | none => p
      | some v => add v p)) (some x) = some y := by
    intro l
    induction l with
    | nil => exact fun x => ⟨x, rfl⟩
    | cons p ps ih => exact fun x => ih (add x p)
  cases values with
  | nil => simp [sumInOrder]
  | cons p ps =>
    obtain ⟨y, hy⟩ := hsome ps p
    simp only [sumInOrder, List.foldl_cons, hy]
    simp

/-- A run in which decoding, the walk and sampling all complete returns `error = 0`
and the report. -/
theorem qivm_exec_bytecode_ok {P : Type} (H : Host P) (L : Layout) (bytes : List Byte)
    (shots : Nat) (rng : List Nat) (bytecode : List Instruction) (probs : List (Nat × P))
    (trace : List KernelCall) (report : MeasurementResult)
    (hb : ByteCode L bytes = .ok bytecode) (hx : executeOnce H L bytecode = .ok (probs, trace))
    (hs : sample H probs shots rng = some (.ok report)) :
    qivm_exec_bytecode H L bytes shots rng =
      { trace := trace, outcome := .returned { error := 0, measurement := report } } := by
  simp only [qivm_exec_bytecode, hb, hx, hs]

theorem executeOnce_example :
    executeOnce Host.example Layout.example
        [.primitive 0 [1], .standard 1 [] [0], .primitive 2 [0]] =
      .ok ([(0, 65536)], [.createQureg 1, .initZeroState (some 0),
        .gate (some 0) (.hadamard 0), .destroyQureg (some 0)]) := rfl

theorem sample_example :
    sample Host.example [(0, 65536)] 2 [70000, 0] =
      some (.ok { shots := 2, result_size := 1,
                  measurements := some [{ value := 0, count := 2 }] }) := by
  rw [sample_single Host.example 0 65536 1 [70000, 0] (by norm_num), if_pos (by decide)]

/-- The run of the example host on `Alloc 1; H q0; Measure q0` with two shots. -/
theorem qivm_exec_bytecode_example :
    qivm_exec_bytecode Host.example Layout.example
        [1, 0, 1, 1, 0, 0, 0, 0, 0, 0, 0, 2, 1, 0, 1, 0, 0, 0, 0, 1, 2, 1, 0, 0, 0, 0, 0, 0, 0, 0]
        2 [70000, 0] =
      { trace := [.createQureg 1, .initZeroState (some 0), .gate (some 0) (.hadamard 0),
          .destroyQureg (some 0)],
        outcome := .returned
          { error := 0,
            measurement :=
              { shots := 2, result_size := 1, measurements := some [{ value := 0, count := 2 }] } } } :=
  qivm_exec_bytecode_ok Host.example Layout.example _ 2 [70000, 0]
    [.primitive 0 [1], .standard 1 [] [0], .primitive 2 [0]] [(0, 65536)] _ _ rfl
    executeOnce_example sample_example

/-! ## Theorems: runs in which every operation is defined -/

/-- When a run returns `error = 0`, so that no `Measure` has listed a qubit above 31 and
no register measured had 31 qubits or more, every value `v` of the measurement report
satisfies `v & ~measure_mask == 0`, where `measure_mask`, a 64-bit value, is the bitwise
OR of `2 ^ q` over every qubit `q` listed by a `Measure` instruction of the program. -/
theorem report_values_within_mask_of_returned {P : Type} (H : Host P) (L : Layout)
    (bytes : List Byte) (shots : Nat) (rng : List Nat) (r : ExecuteResult)
    (hrun : (qivm_exec_bytecode H L bytes shots rng).outcome = .returned r)
    (herr : r.error = 0) :
    ∃ bytecode entries, ByteCode L bytes = .ok bytecode ∧
      r.measurement.measurements = some entries ∧ measureMask 0 bytecode < 2 ^ 64 ∧
      ∀ e ∈ entries, e.value &&& complement64 (measureMask 0 bytecode) = 0 := by
  simp only [qivm_exec_bytecode] at hrun
  cases hb : ByteCode L bytes with
  | error e =>
    simp only [hb, Outcome.returned.injEq] at hrun
    subst hrun
    cases herr
  | ok bytecode =>
    simp only [hb] at hrun
    cases hx : executeOnce H L bytecode with
    | error a =>
      obtain ⟨cause, trace⟩ := a
      cases cause with
      | thrown e =>
        simp only [hx, Outcome.returned.injEq] at hrun
        subst hrun
        cases herr
      | undefined u => simp [hx] at hrun
    | ok pt =>
      obtain ⟨probs, trace⟩ := pt
      simp only [hx] at hrun
      cases hs : sample H probs shots rng with
      | none => simp [hs] at hrun
      | some res =>
        cases res with
        | error u => simp [hs] at hrun
        | ok report =>
        simp only [hs, Outcome.returned.injEq] at hrun
        subst hrun
        simp only [executeOnce] at hx
        cases hwalk : forEach H L (ExecState.init P) bytecode with
        | error a => simp [hwalk] at hx
        | ok s =>
          simp only [hwalk, Except.ok.injEq, Prod.mk.injEq] at hx
          obtain ⟨hprobs, -⟩ := hx
          obtain ⟨-, hkeys, hhigh⟩ := forEach_mask_invariant H L bytecode _ s 0 hwalk
            (fun i _ => rfl) (fun kv hkv => by simp [ExecState.init] at hkv)
            (fun i hi => by simp at hi)
          have hent : ∃ entries, report.measurements = some entries := by
            obtain ⟨-, -, entries, hentries, -, -⟩ := sample_report_counts H probs shots rng report hs
            exact ⟨entries, hentries⟩
          obtain ⟨entries, hentries⟩ := hent
          refine ⟨bytecode, entries, rfl, hentries, ?_, ?_⟩
          · apply Nat.lt_pow_two_of_testBit
            intro i hi
            cases hbit : (measureMask 0 bytecode).testBit i with
            | false => rfl
            | true =>
              have := hhigh i hbit
              omega
          · intro e he
            obtain ⟨kv, hkv, hval⟩ := sample_values H probs shots rng report entries hs hentries e he
            rw [← hval]
            apply and_complement64_eq_zero
            rw [← hprobs] at hkv
            exact hkeys kv hkv

/-- For a program `Alloc n; gates; Measure Q` with a single `Measure` on which
`executeOnce` completes, so that `Q` lists no qubit above 31 and `n` is at most 30, run
on a kernel that reports `n` qubits for the register, the probability map returned has
distinct keys and holds under every key `k` the sum, accumulated in ascending order of
`s`, of `prob_amp(s)` over the basis states `s` in `[0, 2^n)` with `s & m == k` and
`prob_amp(s) > 1e-10`, where `m` is the OR of `2 ^ q` over `Q`; it has no key `k` for
which there is no such `s`. -/
theorem probability_map_of_completed_walk {P : Type} (H : Host P) (L : Layout) (n : Nat)
    (gates : List Instruction) (Q : List Nat) (probs : List (Nat × P))
    (trace : List KernelCall)
    (hgates : ∀ i ∈ gates, ∃ gate params targets, i = Instruction.standard gate params targets)
    (hrun : executeOnce H L (.primitive 0 [n] :: (gates ++ [.primitive 2 Q])) =
      .ok (probs, trace))
    (hn : H.numQubitsRepresented trace.dropLast (some 0) = n) :
    probs.Pairwise (fun a b => a.1 < b.1) ∧
      (∀ k, mapFind probs k =
        sumInOrder H.add
          (((List.range (2 ^ n)).filter
            (fun s => decide (s &&& specMask 0 Q = k) &&
              H.aboveThreshold (H.getProbAmp trace.dropLast (some 0) s))).map
            (H.getProbAmp trace.dropLast (some 0)))) ∧
      ∀ k, mapFind probs k = none ↔
        ∀ s, s < 2 ^ n → s &&& specMask 0 Q = k →
          H.aboveThreshold (H.getProbAmp trace.dropLast (some 0) s) = false := by
  obtain ⟨hpair, -, hfind⟩ := executeOnce_single_measure H L n gates Q probs trace hgates hrun
  rw [hn] at hfind
  refine ⟨hpair, hfind, fun k => ?_⟩
  rw [hfind k, sumInOrder_eq_none, List.map_eq_nil_iff, List.filter_eq_nil_iff]
  constructor
  · intro h s hs hk
    have := h s (List.mem_range.2 hs)
    simpa [hk] using this
  · intro h s hs
    by_cases hk : s &&& specMask 0 Q = k
    · simp [hk, h s (List.mem_range.1 hs) hk]
    · simp [hk]

/-! ## Theorems: the runtime library -/

/-- Counting the set bits among the positions below `n` proceeds bit by bit from the
lowest. -/
theorem length_filter_testBit (n v : Nat) :
    ((List.range n).filter (fun i => v.testBit i)).length = bitsBelow n v := by
  induction n generalizing v with
  | zero => rfl
  | succ n ih =>
    rw [List.range_succ_eq_map, List.filter_cons, List.filter_map, bitsBelow]
    have h : ((fun i => v.testBit i) ∘ Nat.succ) = fun i => (v / 2).testBit i := by
      funext i
      simp [Nat.testBit_succ]
    rw [h]
    rcases Nat.mod_two_eq_zero_or_one v with h0 | h1
    · simp [Nat.testBit_zero, h0, ih]
    · simp [Nat.testBit_zero, h1, ih]
      omega

/-- The number of bits set in a value is the count over its 32 lowest bits. -/
theorem bitCount_eq_bitsBelow (v : Nat) : bitCount v = bitsBelow 32 v :=
  length_filter_testBit 32 v

/-- The count of set bits is additive over a split of the value at bit `k`. -/
theorem bitsBelow_add (k n a r : Nat) (ha : a < 2 ^ k) :
    bitsBelow (k + n) (a + 2 ^ k * r) = bitsBelow k a + bitsBelow n r := by
  induction k generalizing a with
  | zero =>
    have : a = 0 := by simpa using ha
    simp [this, bitsBelow]
  | succ k ih =>
    have e : k + 1 + n = (k + n) + 1 := by omega
    rw [e, bitsBelow, bitsBelow]
    have e2 : 2 ^ (k + 1) * r = 2 * (2 ^ k * r) := by rw [pow_succ]; ring
    have h1 : (a + 2 ^ (k + 1) * r) % 2 = a % 2 := by
      rw [e2]; omega
    have h2 : (a + 2 ^ (k + 1) * r) / 2 = a / 2 + 2 ^ k * r := by
      rw [e2]; omega
    have h3 : a / 2 < 2 ^ k := by
      rw [pow_succ] at ha; omega
    rw [h1, h2, ih _ h3]
    omega

/-- The number of bits set in a 32-bit value is the sum over its four bytes. -/
theorem bitCount_bytes4 (a b c d : Nat) (ha : a < 256) (hb : b < 256) (hc : c < 256) :
    bitCount (bytes4 a b c d) =
      bitsBelow 8 a + bitsBelow 8 b + bitsBelow 8 c + bitsBelow 8 d := by
  rw [bitCount_eq_bitsBelow, bytes4]
  have h1 := bitsBelow_add 8 24 a (b + 256 * (c + 256 * d)) (by simpa using ha)
  have h2 := bitsBelow_add 8 16 b (c + 256 * d) (by simpa using hb)
  have h3 := bitsBelow_add 8 8 c d (by simpa using hc)
  norm_num at h1 h2 h3
  rw [h1, h2, h3]
  omega

/-- Bitwise conjunction acts separately below and above bit `k`. -/
theorem and_add_two_pow_mul (k a x m y : Nat) (ha : a < 2 ^ k) (hm : m < 2 ^ k) :
    (a + 2 ^ k * x) &&& (m + 2 ^ k * y) = (a &&& m) + 2 ^ k * (x &&& y) := by
  apply Nat.eq_of_testBit_eq
  intro j
  have ham : a &&& m < 2 ^ k := Nat.and_lt_two_pow a hm
  rw [Nat.testBit_and, Nat.add_comm a, Nat.add_comm m, Nat.add_comm (a &&& m),
    Nat.testBit_mul_pow_two_add _ ha, Nat.testBit_mul_pow_two_add _ hm,
    Nat.testBit_mul_pow_two_add _ ham]
  split <;> simp [Nat.testBit_and]

/-- Bitwise conjunction acts byte by byte. -/
theorem and_bytes4 (a b c d a' b' c' d' : Nat) (ha : a < 256) (hb : b < 256) (hc : c < 256)
    (ha' : a' < 256) (hb' : b' < 256) (hc' : c' < 256) :
    bytes4 a b c d &&& bytes4 a' b' c' d' =
      bytes4 (a &&& a') (b &&& b') (c &&& c') (d &&& d') := by
  have h := and_add_two_pow_mul 8
  norm_num at h
  simp only [bytes4]
  rw [h _ _ _ _ ha ha', h _ _ _ _ hb hb', h _ _ _ _ hc hc']

set_option maxRecDepth 100000 in
/-- The steps of `uint32_count_ones` on each of the 256 bytes: a mask hides the bits
shifted in from the byte above, no step carries out of the byte, and the third step
leaves the number of bits set in the byte. -/
theorem byte_steps : ∀ a < 256,
    (∀ t < 2, (a / 2 + 128 * t) &&& 0x55 = (a / 2) &&& 0x55) ∧
    (a / 2) &&& 0x55 ≤ a ∧
    bytePairs a < 256 ∧
    (∀ t < 4, (bytePairs a / 4 + 64 * t) &&& 0x33 = (bytePairs a / 4) &&& 0x33) ∧
    byteNibbles a < 256 ∧
    byteNibbles a % 16 < 5 ∧
    (∀ t < 5, (byteNibbles a + (byteNibbles a / 16 + 16 * t)) &&& 0x0F = bitsBelow 8 a ∧
      byteNibbles a + (byteNibbles a / 16 + 16 * t) < 256) ∧
    bitsBelow 8 a ≤ 8 := by
  decide

/-- The function `uint32_count_ones` on a value given by its four bytes returns the sum of
the bit counts of the bytes. -/
theorem uint32_count_ones_bytes4 (a b c d : Nat) (ha : a < 256) (hb : b < 256)
    (hc : c < 256) (hd : d < 256) :
    uint32_count_ones (bytes4 a b c d) =
      bitsBelow 8 a + bitsBelow 8 b + bitsBelow 8 c + bitsBelow 8 d := by
  obtain ⟨a1, a2, a3, a4, a5, a6, a7, a8⟩ := byte_steps a ha
  obtain ⟨b1, b2, b3, b4, b5, b6, b7, b8⟩ := byte_steps b hb
  obtain ⟨c1, c2, c3, c4, c5, c6, c7, c8⟩ := byte_steps c hc
  obtain ⟨d1, d2, d3, d4, d5, d6, d7, d8⟩ := byte_steps d hd
  have m5 : 0x55555555 = bytes4 0x55 0x55 0x55 0x55 := rfl
  have m3 : 0x33333333 = bytes4 0x33 0x33 0x33 0x33 := rfl
  have mF : 0x0F0F0F0F = bytes4 0x0F 0x0F 0x0F 0x0F := rfl
  -- the pairs
  have s1 : bytes4 a b c d >>> 1 =
      bytes4 (a / 2 + 128 * (b % 2)) (b / 2 + 128 * (c % 2)) (c / 2 + 128 * (d % 2))
        (d / 2 + 128 * 0) := by
    rw [Nat.shiftRight_eq_div_pow]
    simp only [bytes4]
    omega
  have x1 : (bytes4 a b c d >>> 1) &&& 0x55555555 =
      bytes4 (a / 2 &&& 0x55) (b / 2 &&& 0x55) (c / 2 &&& 0x55) (d / 2 &&& 0x55) := by
    rw [s1, m5, and_bytes4 _ _ _ _ _ _ _ _ (by omega) (by omega) (by omega) (by omega)
      (by omega) (by omega), a1 _ (Nat.mod_lt _ (by omega)), b1 _ (Nat.mod_lt _ (by omega)),
      c1 _ (Nat.mod_lt _ (by omega)), d1 0 (by omega)]
  have v1 : (bytes4 a b c d + 2 ^ 32 - ((bytes4 a b c d >>> 1) &&& 0x55555555)) % 2 ^ 32 =
      bytes4 (bytePairs a) (bytePairs b) (bytePairs c) (bytePairs d) := by
    rw [x1]
    simp only [bytes4, bytePairs]
    omega
  -- the nibbles
  have s2 : bytes4 (bytePairs a) (bytePairs b) (bytePairs c) (bytePairs d) >>> 2 =
      bytes4 (bytePairs a / 4 + 64 * (bytePairs b % 4)) (bytePairs b / 4 + 64 * (bytePairs c % 4))
        (bytePairs c / 4 + 64 * (bytePairs d % 4)) (bytePairs d / 4 + 64 * 0) := by
    rw [Nat.shiftRight_eq_div_pow]
    simp only [bytes4]
    omega
  have v2 : ((bytes4 (bytePairs a) (bytePairs b) (bytePairs c) (bytePairs d) &&& 0x33333333) +
        ((bytes4 (bytePairs a) (bytePairs b) (bytePairs c) (bytePairs d) >>> 2) &&&
          0x33333333)) % 2 ^ 32 =
      bytes4 (byteNibbles a) (byteNibbles b) (byteNibbles c) (byteNibbles d) := by
    rw [s2, m3, and_bytes4 _ _ _ _ _ _ _ _ a3 b3 c3 (by omega) (by omega) (by omega),
      and_bytes4 _ _ _ _ _ _ _ _ (by omega) (by omega) (by omega) (by omega) (by omega)
        (by omega),
      a4 _ (Nat.mod_lt _ (by omega)), b4 _ (Nat.mod_lt _ (by omega)),
      c4 _ (Nat.mod_lt _ (by omega)), d4 0 (by omega)]
    simp only [bytes4, byteNibbles] at a5 b5 c5 d5 ⊢
    omega
  -- the bytes
  have s3 : bytes4 (byteNibbles a) (byteNibbles b) (byteNibbles c) (byteNibbles d) >>> 4 =
      bytes4 (byteNibbles a / 16 + 16 * (byteNibbles b % 16))
        (byteNibbles b / 16 + 16 * (byteNibbles c % 16))
        (byteNibbles c / 16 + 16 * (byteNibbles d % 16)) (byteNibbles d / 16 + 16 * 0) := by
    rw [Nat.shiftRight_eq_div_pow]
    simp only [bytes4]
    omega
  have v3 : ((bytes4 (byteNibbles a) (byteNibbles b) (byteNibbles c) (byteNibbles d) +
        (bytes4 (byteNibbles a) (byteNibbles b) (byteNibbles c) (byteNibbles d) >>> 4)) %
          2 ^ 32) &&& 0x0F0F0F0F =
      bytes4 (bitsBelow 8 a) (bitsBelow 8 b) (bitsBelow 8 c) (bitsBelow 8 d) := by
    have ta := a7 _ c6
    have e : (bytes4 (byteNibbles a) (byteNibbles b) (byteNibbles c) (byteNibbles d) +
        (bytes4 (byteNibbles a) (byteNibbles b) (byteNibbles c) (byteNibbles d) >>> 4)) %
          2 ^ 32 =
        bytes4 (byteNibbles a + (byteNibbles a / 16 + 16 * (byteNibbles b % 16)))
          (byteNibbles b + (byteNibbles b / 16 + 16 * (byteNibbles c % 16)))
          (byteNibbles c + (byteNibbles c / 16 + 16 * (byteNibbles d % 16)))
          (byteNibbles d + (byteNibbles d / 16 + 16 * 0)) := by
      rw [s3]
      have := (a7 _ b6).2
      have := (b7 _ c6).2
      have := (c7 _ d6).2
      have := (d7 0 (by omega)).2
      simp only [bytes4] at *
      omega
    rw [e, mF, and_bytes4 _ _ _ _ _ _ _ _ (a7 _ b6).2 (b7 _ c6).2 (c7 _ d6).2 (by omega)
      (by omega) (by omega), (a7 _ b6).1, (b7 _ c6).1, (c7 _ d6).1, (d7 0 (by omega)).1]
  -- the sum of the bytes
  unfold uint32_count_ones
  simp only []
  rw [v1, v2, v3, Nat.shiftRight_eq_div_pow, Nat.shiftRight_eq_div_pow,
    show (0x0000003F : Nat) = 2 ^ 6 - 1 from rfl, Nat.and_pow_two_sub_one_eq_mod]
  clear v1 v2 v3 s1 s2 s3 x1 m5 m3 mF
  simp only [bytes4]
  generalize bitsBelow 8 a = pa at *
  generalize bitsBelow 8 b = pb at *
  generalize bitsBelow 8 c = pc at *
  generalize bitsBelow 8 d = pd at *
  clear a1 a2 a3 a4 a5 a6 a7 b1 b2 b3 b4 b5 b6 b7 c1 c2 c3 c4 c5 c6 c7 d1 d2 d3 d4 d5 d6 d7
  have e4 : (pa + 256 * (pb + 256 * (pc + 256 * pd)) +
        (pa + 256 * (pb + 256 * (pc + 256 * pd))) / 2 ^ 8) % 2 ^ 32 =
      (pa + pb) + 256 * ((pb + pc) + 256 * ((pc + pd) + 256 * pd)) := by
    omega
  rw [e4]
  clear e4
  have e5 : ((pa + pb) + 256 * ((pb + pc) + 256 * ((pc + pd) + 256 * pd)) +
        ((pa + pb) + 256 * ((pb + pc) + 256 * ((pc + pd) + 256 * pd))) / 2 ^ 16) % 2 ^ 32 =
      (pa + pb + pc + pd) + 256 * ((pb + pc + pd) + 256 * ((pc + pd) + 256 * pd)) := by
    have e : ((pa + pb) + 256 * ((pb + pc) + 256 * ((pc + pd) + 256 * pd))) / 2 ^ 16 =
        (pc + pd) + 256 * pd := by
      omega
    rw [e]
    omega
  rw [e5]
  clear e5
  omega

/-- The function `uint32_count_ones` returns the number of bits set in a 32-bit value,
which is at most 32. -/
theorem uint32_count_ones_eq (v : Nat) (hv : v < 2 ^ 32) :
    uint32_count_ones v = bitCount v ∧ bitCount v ≤ 32 := by
  have e : v = bytes4 (v % 256) (v / 256 % 256) (v / 65536 % 256) (v / 16777216) := by
    simp only [bytes4]
    omega
  have ha : v % 256 < 256 := Nat.mod_lt _ (by omega)
  have hb : v / 256 % 256 < 256 := Nat.mod_lt _ (by omega)
  have hc : v / 65536 % 256 < 256 := Nat.mod_lt _ (by omega)
  have hd : v / 16777216 < 256 := by omega
  have h8a := (byte_steps _ ha).2.2.2.2.2.2.2
  have h8b := (byte_steps _ hb).2.2.2.2.2.2.2
  have h8c := (byte_steps _ hc).2.2.2.2.2.2.2
  have h8d := (byte_steps _ hd).2.2.2.2.2.2.2
  rw [e, uint32_count_ones_bytes4 _ _ _ _ ha hb hc hd, bitCount_bytes4 _ _ _ _ ha hb hc]
  omega

/-- A value returned by the loop of `stateq_bits_count_ones` is the count so far plus the
results of `uint32_count_ones` on the blocks, and after at least one block it is in the
range of `int`. -/
theorem countOnesFrom_some (data : List Nat) (i c r : Nat)
    (h : countOnesFrom data i c = some r) :
    r = c + (data.map uint32_count_ones).sum ∧ (data ≠ [] → r ≤ 2 ^ 31 - 1) := by
  induction data generalizing i c with
  | nil =>
    simp only [countOnesFrom, Option.some.injEq] at h
    simp [h]
  | cons block rest ih =>
    rw [countOnesFrom] at h
    split at h
    · exact absurd h (by simp)
    · split at h
      · exact absurd h (by simp)
      · obtain ⟨h1, h2⟩ := ih _ _ h
        refine ⟨by rw [h1, List.map_cons, List.sum_cons]; omega, fun _ => ?_⟩
        cases rest with
        | nil =>
          simp only [List.map_nil, List.sum_nil] at h1
          omega
        | cons x xs => exact h2 (by simp)

/-- The loop of `stateq_bits_count_ones` returns the count so far plus the results of
`uint32_count_ones` on the blocks when neither the counter `i` nor the sum leaves the
range of `int`. -/
theorem countOnesFrom_eq (data : List Nat) (i c : Nat) (hi : i + data.length ≤ 2 ^ 31 - 1)
    (hs : c + (data.map uint32_count_ones).sum ≤ 2 ^ 31 - 1) :
    countOnesFrom data i c = some (c + (data.map uint32_count_ones).sum) := by
  induction data generalizing i c with
  | nil => simp [countOnesFrom]
  | cons block rest ih =>
    simp only [List.map_cons, List.sum_cons, List.length_cons] at hi hs ⊢
    rw [countOnesFrom, if_neg (by omega), if_neg (by omega), ih _ _ (by omega) (by omega)]
    congr 1
    omega

/-- The results of `uint32_count_ones` on blocks below `2 ^ 32` are their bit counts. -/
theorem map_uint32_count_ones (data : List Nat) (h : ∀ block ∈ data, block < 2 ^ 32) :
    data.map uint32_count_ones = data.map bitCount :=
  List.map_congr_left (fun block hb => (uint32_count_ones_eq block (h block hb)).1)

/-- The sum of the bit counts of `n` equal blocks. -/
theorem sum_map_replicate (f : Nat → Nat) (n block : Nat) :
    ((List.replicate n block).map f).sum = n * f block := by
  rw [List.map_replicate, List.sum_replicate, smul_eq_mul]

/-- The function `stateq_bits_iterator_next_bit` never changes `bit_offset`: both branches
of its offset update assign `block_offset`. -/
theorem stateq_bits_iterator_next_bit_bit_offset (bits : StateqBits)
    (iterator iterator' : StateqBitsIterator) (bit : Bool)
    (h : stateq_bits_iterator_next_bit bits iterator = .ok (bit, iterator')) :
    iterator'.bit_offset = iterator.bit_offset := by
  unfold stateq_bits_iterator_next_bit at h
  split at h
  · exact absurd h (by simp)
  · exact absurd h (by simp)
  · split at h
    · exact absurd h (by simp)
    · have key : ∀ it2 : StateqBitsIterator, it2.bit_offset = iterator.bit_offset →
          (if 0 ≤ it2.block_offset ∧ it2.block_offset.toNat < bits.data_size then
            (.ok (decide ((bits.data.getD it2.block_offset.toNat 0 >>>
                it2.bit_offset.toNat) &&& 1 ≠ 0), it2) :
              Except IteratorFault (Bool × StateqBitsIterator))
          else .error .outOfBounds) = .ok (bit, iterator') →
          iterator'.bit_offset = iterator.bit_offset := by
        intro it2 h2 h3
        split at h3
        · simp only [Except.ok.injEq, Prod.mk.injEq] at h3
          rw [← h3.2, h2]
        · exact absurd h3 (by simp)
      exact key _ (by split <;> rfl) h

/-- The product of two values below `2 ^ 31` is in the range of `int64_t`, and its
remainder is the mathematical one. -/
theorem mulMod_eq (a b mod : Int) (ha0 : 0 ≤ a) (ha : a < 2 ^ 31) (hb0 : 0 ≤ b)
    (hb : b < 2 ^ 31) (hm : 1 ≤ mod) : mulMod a b mod = some (a * b % mod) := by
  have h0 : 0 ≤ a * b := mul_nonneg ha0 hb0
  have h1 : a * b < 2 ^ 63 := by nlinarith
  have hf : fitsInt64 (a * b) = true := by
    simp only [fitsInt64, Bool.and_eq_true, decide_eq_true_eq]
    constructor <;> omega
  have hm0 : mod ≠ 0 := by omega
  rw [mulMod, hf, Int.tmod_eq_emod h0 (by omega)]
  simp [hm0]

/-- The loop of `mpowi` from a state with `result`, `base` and `mod` below `2 ^ 31`: it
ends within `fuel` iterations when `exponent < 2 ^ fuel`, leaves `result` untouched when
`exponent` is zero and otherwise returns `result * base ^ exponent` modulo `mod`. -/
theorem mpowiLoop_eq (fuel : Nat) (result base exponent mod : Int) (hr0 : 0 ≤ result)
    (hr : result < 2 ^ 31) (hb0 : 0 ≤ base) (hb : base < 2 ^ 31) (hm : 1 ≤ mod)
    (hm31 : mod < 2 ^ 31) (he0 : 0 ≤ exponent) (he : exponent < 2 ^ fuel) :
    mpowiLoop fuel result base exponent mod =
      some (if exponent = 0 then result else result * base ^ exponent.toNat % mod) := by
  induction fuel generalizing result base exponent with
  | zero =>
    have : exponent = 0 := by
      simp only [pow_zero] at he
      omega
    subst this
    simp [mpowiLoop]
  | succ fuel ih =>
    rw [mpowiLoop]
    by_cases hpos : exponent > 0
    · have hne : exponent ≠ 0 := by omega
      rw [if_pos hpos, if_neg hne, mulMod_eq base base mod hb0 hb hb0 hb hm]
      have hbase0 : 0 ≤ base * base % mod := Int.emod_nonneg _ (by omega)
      have hbase : base * base % mod < 2 ^ 31 :=
        lt_trans (Int.emod_lt_of_pos _ (by omega)) hm31
      have he2 : exponent / 2 < 2 ^ fuel := by
        rw [pow_succ] at he
        omega
      have he20 : 0 ≤ exponent / 2 := by omega
      by_cases hodd : exponent % 2 = 1
      · rw [if_pos hodd, mulMod_eq result base mod hr0 hr hb0 hb hm]
        have hres0 : 0 ≤ result * base % mod := Int.emod_nonneg _ (by omega)
        have hres : result * base % mod < 2 ^ 31 :=
          lt_trans (Int.emod_lt_of_pos _ (by omega)) hm31
        simp only []
        rw [ih _ _ _ hres0 hres hbase0 hbase he20 he2]
        have hexp : exponent.toNat = 2 * (exponent / 2).toNat + 1 := by omega
        by_cases hz : exponent / 2 = 0
        · rw [if_pos hz]
          have : exponent.toNat = 1 := by omega
          rw [this, pow_one]
        · rw [if_neg hz, hexp]
          have e : result * base ^ (2 * (exponent / 2).toNat + 1) =
              result * base * (base * base) ^ (exponent / 2).toNat := by ring
          rw [e]
          exact congrArg some
            (Int.ModEq.mul (Int.mod_modEq _ _) (Int.ModEq.pow _ (Int.mod_modEq _ _)))
      · rw [if_neg hodd]
        simp only []
        rw [ih _ _ _ hr0 hr hbase0 hbase he20 he2]
        have hexp : exponent.toNat = 2 * (exponent / 2).toNat := by omega
        have hz : exponent / 2 ≠ 0 := by omega
        rw [if_neg hz, hexp]
        have e : result * base ^ (2 * (exponent / 2).toNat) =
            result * (base * base) ^ (exponent / 2).toNat := by ring
        rw [e]
        exact congrArg some
          (Int.ModEq.mul (Int.ModEq.refl _) (Int.ModEq.pow _ (Int.mod_modEq _ _)))
    · have : exponent = 0 := by omega
      subst this
      simp
/-- The function `mpowi` returns `base ^ exponent` modulo `mod`, without overflow, when
`exponent` is at least 1 or `mod` is at least 2. -/
theorem mpowi_eq (base exponent mod : Int) (hb0 : 0 ≤ base) (hb : base < 2 ^ 31)
    (he0 : 0 ≤ exponent) (he : exponent < 2 ^ 63) (hm : 1 ≤ mod) (hm31 : mod < 2 ^ 31)
    (h : 1 ≤ exponent ∨ 2 ≤ mod) :
    mpowi base exponent mod = some (base ^ exponent.toNat % mod) := by
  have he64 : exponent < 2 ^ 64 := by omega
  rw [mpowi, mpowiLoop_eq 64 1 base exponent mod (by omega) (by omega) hb0 hb hm hm31 he0 he64]
  by_cases hz : exponent = 0
  · subst hz
    have : (1 : Int) % mod = 1 := Int.emod_eq_of_lt (by omega) (by omega)
    simp [this]
  · rw [if_neg hz, one_mul]

/-- With `exponent` zero the loop of `mpowi` is not entered and the initial `result`, 1,
is returned whatever `mod` is. -/
theorem mpowi_exponent_zero (base mod : Int) : mpowi base 0 mod = some 1 := rfl

/-! ## Claims -/

/-- C1. Decoder round trip: for every list of well-formed `Primitive` and
`StandardGate` instructions, decoding the concatenation of their wire encodings, with
any number of `Nop` tag bytes before each of them and at the end, succeeds and yields
exactly those instructions, with the same opcode or gate, parameters and targets, in
the same order. -/
theorem decoder_round_trip (L : Layout) (items : List (Nat × Instruction)) (trailing : Nat)
    (h : ∀ item ∈ items, item.2.WellFormed L) :
    ByteCode L (encodeStream L items trailing) = .ok (items.map Prod.snd) :=
  ByteCode_encodeStream L items trailing h

theorem decoder_round_trip_witness :
    (∀ item ∈ [(1, Instruction.primitive 0 [3]), (0, Instruction.standard 1 [] [256])],
        item.2.WellFormed Layout.example) ∧
      ByteCode Layout.example
          (encodeStream Layout.example
            [(1, Instruction.primitive 0 [3]), (0, Instruction.standard 1 [] [256])] 2) =
        .ok [Instruction.primitive 0 [3], Instruction.standard 1 [] [256]] :=
  ⟨by decide, decoder_round_trip Layout.example _ 2 (by decide)⟩

/-- C2. For every well-formed byte stream and every cut position `k` strictly inside
the encoding of one of its instructions, decoding the first `k` bytes fails with the
`BytecodeParseException` "Unexpected end of bytecode". The stream is the encoding of
`items1`, then `nops` `Nop` bytes and `instr`, then whatever follows. -/
theorem truncated_stream_fails (L : Layout) (items1 items2 : List (Nat × Instruction))
    (nops : Nat) (instr : Instruction) (trailing k : Nat)
    (hwf1 : ∀ item ∈ items1, item.2.WellFormed L) (hwf : instr.WellFormed L)
    (hlo : (encodeStream L items1 nops).length < k)
    (hhi : k < (encodeStream L items1 nops).length + (instr.encode L).length) :
    ByteCode L ((encodeStream L (items1 ++ (nops, instr) :: items2) trailing).take k) =
      .error .unexpectedEnd := by
  have hpre := ByteCode_encodeStream L items1 nops hwf1
  have hcut : (encodeStream L (items1 ++ (nops, instr) :: items2) trailing).take k =
      encodeStream L items1 nops ++
        (instr.encode L).take (k - (encodeStream L items1 nops).length) := by
    have hz : k - (encodeStream L items1 nops).length - (instr.encode L).length = 0 := by
      omega
    rw [encodeStream_append, List.take_append_eq_append_take, List.take_of_length_le hlo.le,
      List.take_append_eq_append_take, hz, List.take_zero, List.append_nil]
  rw [hcut, ByteCode_append L _ _ hpre,
    ByteCode_truncated L instr hwf _ (by omega) (by omega)]

theorem truncated_stream_fails_witness :
    ByteCode Layout.example
        ((encodeStream Layout.example
          ([(1, Instruction.primitive 0 [3])] ++ (0, Instruction.standard 1 [] [256]) :: []) 0).take
          15) =
      .error .unexpectedEnd :=
  truncated_stream_fails Layout.example [(1, Instruction.primitive 0 [3])] [] 0
    (Instruction.standard 1 [] [256]) 0 15 (by decide) (by decide) (by decide) (by decide)

/-- C3. For every byte stream `p ++ [t] ++ rest` where `p` decodes on its own, `t` is
a byte other than 0, 1 and 2 and `rest` is arbitrary, the decoder fails with the
`BytecodeParseException` "Invalid instruction type". -/
theorem unknown_tag_fails (L : Layout) (p rest : List Byte) (t : Byte)
    (instrs : List Instruction) (hp : ByteCode L p = .ok instrs)
    (h0 : t ≠ 0) (h1 : t ≠ 1) (h2 : t ≠ 2) :
    ByteCode L (p ++ [t] ++ rest) = .error (.invalidType t.val) := by
  have ht : 2 < t.val := by
    have a0 : t.val ≠ 0 := fun h => h0 (Fin.ext h)
    have a1 : t.val ≠ 1 := fun h => h1 (Fin.ext h)
    have a2 : t.val ≠ 2 := fun h => h2 (Fin.ext h)
    omega
  rw [List.append_assoc, ByteCode_append L _ _ hp, List.singleton_append,
    ByteCode_step L (List.cons_ne_nil _ _), decodeStep_invalidType L t rest ht]

theorem unknown_tag_fails_witness :
    ByteCode Layout.example ([0, 1, 0, 1, 3, 0, 0, 0, 0, 0, 0, 0] ++ [7] ++ [1, 2, 0]) =
      .error (.invalidType 7) :=
  unknown_tag_fails Layout.example [0, 1, 0, 1, 3, 0, 0, 0, 0, 0, 0, 0] [1, 2, 0] 7
    [.primitive 0 [3]] rfl (by decide) (by decide) (by decide)

/-- C4. For every byte stream `p ++ [1, op] ++ rest` where `p` decodes on its own, `op`
is a byte above 2 and `rest` is arbitrary, the decoder fails with the
`BytecodeParseException` "Invalid primitive opcode" and so returns no instruction. -/
theorem invalid_opcode_fails (L : Layout) (p rest : List Byte) (op : Byte)
    (instrs : List Instruction) (hp : ByteCode L p = .ok instrs) (hop : 2 < op.val) :
    ByteCode L (p ++ [1, op] ++ rest) = .error (.invalidOpcode op.val) := by
  rw [List.append_assoc, ByteCode_append L _ _ hp]
  have : [1, op] ++ rest = 1 :: op :: rest := rfl
  rw [this, ByteCode_step L (List.cons_ne_nil _ _), decodeStep_invalidOpcode L op rest hop]

theorem invalid_opcode_fails_witness :
    ByteCode Layout.example ([0, 1, 0, 1, 3, 0, 0, 0, 0, 0, 0, 0] ++ [1, 3] ++ [0, 0]) =
      .error (.invalidOpcode 3) :=
  invalid_opcode_fails Layout.example [0, 1, 0, 1, 3, 0, 0, 0, 0, 0, 0, 0] [0, 0] 3
    [.primitive 0 [3]] rfl (by decide)

/-- C5. For every byte stream on which the decoder fails and every shot count,
`qivm_exec_bytecode` returns `error = 2` with a null measurement pointer and
`result_size = shots = 0`, and makes no kernel call on a register, in particular no
`createQureg` call. -/
theorem parse_failure_returns_error_2 {P : Type} (H : Host P) (L : Layout) (bytes : List Byte)
    (shots : Nat) (rng : List Nat) (e : BytecodeParseException)
    (h : ByteCode L bytes = .error e) :
    (qivm_exec_bytecode H L bytes shots rng).outcome =
        .returned { error := 2,
                    measurement := { shots := 0, result_size := 0, measurements := none } } ∧
      (qivm_exec_bytecode H L bytes shots rng).trace = [] := by
  rw [qivm_exec_bytecode_parse_error H L bytes shots rng e h]
  exact ⟨rfl, rfl⟩

theorem parse_failure_returns_error_2_witness :
    (qivm_exec_bytecode Host.example Layout.example [1, 0, 1, 3, 0, 0, 0] 10 [1, 2, 3]).outcome =
        .returned { error := 2,
                    measurement := { shots := 0, result_size := 0, measurements := none } } ∧
      (qivm_exec_bytecode Host.example Layout.example [1, 0, 1, 3, 0, 0, 0] 10 [1, 2, 3]).trace =
        [] :=
  parse_failure_returns_error_2 Host.example Layout.example [1, 0, 1, 3, 0, 0, 0] 10 [1, 2, 3]
    .unexpectedEnd rfl

/-- C6. For every program whose first decoded instruction is a `Primitive` `Measure`
or a `StandardGate` instruction, and every shot count, `qivm_exec_bytecode` returns
`error = 1` with a null measurement pointer and `result_size = shots = 0`, having
made no kernel call at all, so without applying any gate. -/
theorem measure_or_gate_before_alloc {P : Type} (H : Host P) (L : Layout) (bytes : List Byte)
    (shots : Nat) (rng : List Nat) (first : Instruction) (rest : List Instruction)
    (h : ByteCode L bytes = .ok (first :: rest))
    (hfirst : (∃ params, first = .primitive 2 params) ∨
      ∃ gate params targets, first = .standard gate params targets) :
    (qivm_exec_bytecode H L bytes shots rng).outcome =
        .returned { error := 1,
                    measurement := { shots := 0, result_size := 0, measurements := none } } ∧
      (qivm_exec_bytecode H L bytes shots rng).trace = [] := by
  have hx : executeOnce H L (first :: rest) = .error (.thrown .notInitialized, []) := by
    apply executeOnce_error
    rcases hfirst with ⟨params, rfl⟩ | ⟨gate, params, targets, rfl⟩
    · rfl
    · rfl
  rw [qivm_exec_bytecode_thrown H L bytes shots rng _ _ _ h hx]
  exact ⟨rfl, rfl⟩

theorem measure_or_gate_before_alloc_witness :
    (qivm_exec_bytecode Host.example Layout.example
          [1, 2, 1, 0, 0, 0, 0, 0, 0, 0, 0] 1000 [1, 2, 3]).outcome =
        .returned { error := 1,
                    measurement := { shots := 0, result_size := 0, measurements := none } } ∧
      (qivm_exec_bytecode Host.example Layout.example
          [1, 2, 1, 0, 0, 0, 0, 0, 0, 0, 0] 1000 [1, 2, 3]).trace = [] :=
  measure_or_gate_before_alloc Host.example Layout.example [1, 2, 1, 0, 0, 0, 0, 0, 0, 0, 0]
    1000 [1, 2, 3] (.primitive 2 [0]) [] rfl (Or.inl ⟨[0], rfl⟩)

/-- C7 (the code departs from it). A program that starts with a `Primitive` `Reset` is
executed: `Reset` has no `isInitialized` test. With no qubit listed the only kernel
call is `destroyQureg` on the register that was never created; with qubit 5 listed the
first kernel call is `measure` on that register. In both cases no exception is thrown:
the call returns `error = 0` with an empty report when `shots = 0` and otherwise stays
in the sampling loop, `states` being empty. -/
theorem reset_before_alloc_is_executed {P : Type} (H : Host P) (shots : Nat) (rng : List Nat) :
    (qivm_exec_bytecode H Layout.example [1, 1, 0] shots rng).trace = [.destroyQureg none] ∧
      (qivm_exec_bytecode H Layout.example [1, 1, 0] shots rng).outcome =
        (if shots = 0 then
          .returned
            { error := 0,
              measurement := { shots := 0, result_size := 0, measurements := some [] } }
        else .sampling) ∧
      (qivm_exec_bytecode H Layout.example
          [1, 1, 1, 5, 0, 0, 0, 0, 0, 0, 0] shots rng).trace.head? = some (.measure none 5) ∧
      (qivm_exec_bytecode H Layout.example [1, 1, 1, 5, 0, 0, 0, 0, 0, 0, 0] shots rng).outcome =
        (if shots = 0 then
          .returned
            { error := 0,
              measurement := { shots := 0, result_size := 0, measurements := some [] } }
        else .sampling) := by
  have hb : ByteCode Layout.example [1, 1, 1, 5, 0, 0, 0, 0, 0, 0, 0] =
      .ok [.primitive 1 [5]] := rfl
  have hx : executeOnce H Layout.example [.primitive 1 [5]] =
      .ok ([], resetQubits H none [] [5] ++ [.destroyQureg none]) := rfl
  have hr : (resetQubits H none [] [5]).head? = some (.measure none 5) := by
    simp only [resetQubits]
    split <;> rfl
  have hb0 : ByteCode Layout.example [1, 1, 0] = .ok [.primitive 1 []] := rfl
  have hx0 : executeOnce H Layout.example [.primitive 1 []] =
      .ok ([], [.destroyQureg none]) := rfl
  cases shots with
  | zero =>
    have hs : sample H [] 0 rng =
        some (.ok { shots := 0, result_size := 0, measurements := some [] }) := rfl
    simp only [qivm_exec_bytecode, hb, hx, hb0, hx0, hs, List.head?_append, hr, if_true]
    exact ⟨trivial, trivial, rfl, trivial⟩
  | succ n =>
    have hs := sample_nil H (n + 1) rng (Nat.succ_pos _)
    simp only [qivm_exec_bytecode, hb, hx, hb0, hx0, hs, List.head?_append, hr,
      Nat.succ_ne_zero, if_false]
    exact ⟨trivial, trivial, rfl, trivial⟩

/-- C8 (the code departs from it). The `case StandardGate::I` has no arity assertion:
`execute` succeeds, with no kernel call, on an `I` instruction with no target, and on
one with two parameters and three targets; the program `Alloc 1; I` with no target
runs to the end and returns `error = 0`. -/
theorem identity_gate_skips_arity_check {P : Type} (H : Host P) :
    execute Layout.example 0 [] [] = .ok [] ∧
      execute Layout.example 0 [1, 2] [5, 6, 7] = .ok [] ∧
      qivm_exec_bytecode H Layout.example [1, 0, 1, 1, 0, 0, 0, 0, 0, 0, 0, 2, 0, 0, 0] 0 [] =
        { trace := [.createQureg 1, .initZeroState (some 0), .destroyQureg (some 0)],
          outcome := .returned
            { error := 0,
              measurement := { shots := 0, result_size := 0, measurements := some [] } } } :=
  ⟨rfl, rfl, rfl⟩

/-- C9. For every catalogue gate outside the execution subset, `qivm_is_gate_available`
returns true on its identifier, and for every parameter list and target list
`StandardGateInstruction::execute` throws `UnsupportedGateException` and makes no
kernel call; a program `Alloc n` followed by such an instruction makes
`qivm_exec_bytecode` return `error = 1`, the only kernel calls being those of
`Alloc`. -/
theorem unsupported_catalogue_gate (g : StandardGate)
    (hg : g ∈ [StandardGate.XPOW, .YPOW, .ZPOW, .V, .VD, .RN, .U, .CH, .SSWPD, .ISWP, .ISWPD,
      .SISWP, .SISWPD, .CAN, .CSWP]) :
    qivm_is_gate_available g.ident = true ∧
      ∀ (L : Layout) (gate : Nat) (params targets : List Nat), L.gateOfId gate = some g →
        execute L gate params targets = .error (.thrown (.unsupportedGate gate)) ∧
        ∀ {P : Type} (H : Host P) (bytes : List Byte) (n shots : Nat) (rng : List Nat)
          (rest : List Instruction),
          ByteCode L bytes = .ok (.primitive 0 [n] :: .standard gate params targets :: rest) →
          (qivm_exec_bytecode H L bytes shots rng).outcome =
              .returned { error := 1,
                          measurement := { shots := 0, result_size := 0, measurements := none } } ∧
            (qivm_exec_bytecode H L bytes shots rng).trace =
              [.createQureg (toInt n), .initZeroState (some 0)] := by
  refine ⟨?_, fun L gate params targets hid => ?_⟩
  · simp only [List.mem_cons, List.mem_singleton, List.not_mem_nil, or_false] at hg
    rcases hg with h | h | h | h | h | h | h | h | h | h | h | h | h | h | h <;>
      subst h <;> decide
  · have hex := execute_unsupported L gate params targets g hid hg
    refine ⟨hex, fun {P} H bytes n shots rng rest hb => ?_⟩
    have hx : executeOnce H L (.primitive 0 [n] :: .standard gate params targets :: rest) =
        .error (.thrown (.unsupportedGate gate),
          [.createQureg (toInt n), .initZeroState (some 0)]) := by
      apply executeOnce_error
      simp only [forEach, primitiveInstrExecutor, ExecState.init, standardGateInstrExecutor, hex]
      rfl
    rw [qivm_exec_bytecode_thrown H L bytes shots rng _ _ _ hb hx]
    exact ⟨rfl, rfl⟩

theorem unsupported_catalogue_gate_witness :
    qivm_is_gate_available "ISWP" = true ∧
      execute Layout.example 28 [] [0, 1] = .error (.thrown (.unsupportedGate 28)) ∧
      (qivm_exec_bytecode Host.example Layout.example
            [1, 0, 1, 2, 0, 0, 0, 0, 0, 0, 0, 2, 28, 0, 2, 0, 0, 0, 0, 1, 0, 0, 0] 100 []).outcome =
          .returned { error := 1,
                      measurement := { shots := 0, result_size := 0, measurements := none } } ∧
      (qivm_exec_bytecode Host.example Layout.example
            [1, 0, 1, 2, 0, 0, 0, 0, 0, 0, 0, 2, 28, 0, 2, 0, 0, 0, 0, 1, 0, 0, 0] 100 []).trace =
          [.createQureg 2, .initZeroState (some 0)] :=
  have h := unsupported_catalogue_gate .ISWP (by decide)
  have h2 := h.2 Layout.example 28 [] [0, 1] rfl
  have h3 := h2.2 Host.example
    [1, 0, 1, 2, 0, 0, 0, 0, 0, 0, 0, 2, 28, 0, 2, 0, 0, 0, 0, 1, 0, 0, 0] 2 100 [] [] rfl
  ⟨h.1, h2.1, h3.1, h3.2⟩

/-- C13 (the code departs from it). On the empty byte stream the driver walks no
instruction, calls `destroyQureg` on the register that was never created and goes on
to sampling with an empty `states` array: it returns `error = 0` with an empty table
when `shots = 0`, and for every positive shot count the redraw loop is still drawing
after any finite sequence of generator outputs, so the call does not return. -/
theorem empty_program_sampling_loops {P : Type} (H : Host P) (L : Layout) (shots : Nat)
    (rng : List Nat) :
    qivm_exec_bytecode H L [] 0 rng =
        { trace := [.destroyQureg none],
          outcome := .returned
            { error := 0,
              measurement := { shots := 0, result_size := 0, measurements := some [] } } } ∧
      qivm_exec_bytecode H L [] (shots + 1) rng =
        { trace := [.destroyQureg none], outcome := .sampling } := by
  have hb : ByteCode L [] = .ok [] := rfl
  have hx : executeOnce H L [] = .ok ([], [.destroyQureg none]) := rfl
  have hs : sample H [] 0 rng =
      some (.ok { shots := 0, result_size := 0, measurements := some [] }) := rfl
  constructor
  · simp only [qivm_exec_bytecode, hb, hx, hs]
  · simp only [qivm_exec_bytecode, hb, hx, sample_nil H (shots + 1) rng (Nat.succ_pos _)]

/-- C14. For every string, `qivm_is_gate_available` returns true if and only if the
string is, exactly, one of the 35 identifiers of the catalogue; so it is true for
the identifier of every catalogue gate, those the dispatcher does not execute
included, and false for a name in another case or with a character more. -/
theorem gate_available_iff_in_catalogue (name : String) :
    (qivm_is_gate_available name = true ↔ name ∈ catalogue) ∧
      catalogue.length = 35 ∧ catalogue.Nodup ∧
      (∀ g : StandardGate, qivm_is_gate_available g.ident = true) ∧
      qivm_is_gate_available "ISWP" = true ∧
      qivm_is_gate_available "iswp" = false ∧
      qivm_is_gate_available "HH" = false ∧
      qivm_is_gate_available "" = false := by
  refine ⟨?_, rfl, by decide, ?_, by decide, by decide, by decide, by decide⟩
  · simp only [qivm_is_gate_available, List.any_eq_true, beq_iff_eq]
    constructor
    · rintro ⟨gate, hmem, rfl⟩
      exact hmem
    · intro h
      exact ⟨name, h, rfl⟩
  · intro g
    cases g <;> decide

/-- C15 (the code departs from it). `executeOnce` calls `destroyQureg` once, at its
end, on the current value of `qubits`. When an instruction throws, the register
created by `Alloc` is not destroyed; after two `Alloc` instructions the first
register is not destroyed; with no `Alloc`, `destroyQureg` is called on a register
that was never created. -/
theorem registers_not_released {P : Type} (H : Host P) (shots : Nat) (rng : List Nat) :
    qivm_exec_bytecode H Layout.example
          [1, 0, 1, 2, 0, 0, 0, 0, 0, 0, 0, 2, 28, 0, 0] shots rng =
        { trace := [.createQureg 2, .initZeroState (some 0)],
          outcome := .returned (.failure 1) } ∧
      (qivm_exec_bytecode H Layout.example
          [1, 0, 1, 1, 0, 0, 0, 0, 0, 0, 0, 1, 0, 1, 1, 0, 0, 0, 0, 0, 0, 0] shots rng).trace =
        [.createQureg 1, .initZeroState (some 0), .createQureg 1, .initZeroState (some 1),
          .destroyQureg (some 1)] ∧
      (qivm_exec_bytecode H Layout.example [] shots rng).trace = [.destroyQureg none] := by
  have hb1 : ByteCode Layout.example [1, 0, 1, 2, 0, 0, 0, 0, 0, 0, 0, 2, 28, 0, 0] =
      .ok [.primitive 0 [2], .standard 28 [] []] := rfl
  have hx1 : executeOnce H Layout.example [.primitive 0 [2], .standard 28 [] []] =
      .error (.thrown (.unsupportedGate 28), [.createQureg 2, .initZeroState (some 0)]) := rfl
  have hb2 : ByteCode Layout.example
      [1, 0, 1, 1, 0, 0, 0, 0, 0, 0, 0, 1, 0, 1, 1, 0, 0, 0, 0, 0, 0, 0] =
      .ok [.primitive 0 [1], .primitive 0 [1]] := rfl
  have hx2 : executeOnce H Layout.example [.primitive 0 [1], .primitive 0 [1]] =
      .ok ([], [.createQureg 1, .initZeroState (some 0), .createQureg 1,
        .initZeroState (some 1), .destroyQureg (some 1)]) := rfl
  have hb3 : ByteCode Layout.example [] = .ok [] := rfl
  have hx3 : executeOnce H Layout.example [] = .ok ([], [.destroyQureg none]) := rfl
  refine ⟨?_, ?_, ?_⟩
  · simp only [qivm_exec_bytecode, hb1, hx1]
  · simp only [qivm_exec_bytecode, hb2, hx2]
    split <;> rfl
  · simp only [qivm_exec_bytecode, hb3, hx3]
    split <;> rfl

/-- C16 (the code departs from it). The `Alloc` case reads `instruction.params[0]`
without testing the number of parameters: with no parameter the read is out of
range, and with two parameters a register of `params[0]` qubits is created. -/
theorem alloc_parameter_count_unchecked {P : Type} (H : Host P) (shots : Nat) (rng : List Nat) :
    qivm_exec_bytecode H Layout.example [1, 0, 0] shots rng =
        { trace := [], outcome := .undefined .paramIndexOutOfRange } ∧
      (qivm_exec_bytecode H Layout.example
          [1, 0, 2, 3, 0, 0, 0, 0, 0, 0, 0, 9, 0, 0, 0, 0, 0, 0, 0] shots rng).trace =
        [.createQureg 3, .initZeroState (some 0), .destroyQureg (some 0)] := by
  have hb1 : ByteCode Layout.example [1, 0, 0] = .ok [.primitive 0 []] := rfl
  have hx1 : executeOnce H Layout.example [.primitive 0 []] =
      .error (.undefined .paramIndexOutOfRange, []) := rfl
  have hb2 : ByteCode Layout.example [1, 0, 2, 3, 0, 0, 0, 0, 0, 0, 0, 9, 0, 0, 0, 0, 0, 0, 0] =
      .ok [.primitive 0 [3, 9]] := rfl
  have hx2 : executeOnce H Layout.example [.primitive 0 [3, 9]] =
      .ok ([], [.createQureg 3, .initZeroState (some 0), .destroyQureg (some 0)]) := rfl
  constructor
  · simp only [qivm_exec_bytecode, hb1, hx1]
  · simp only [qivm_exec_bytecode, hb2, hx2]
    split <;> rfl

/-- C18 (the code departs from it). The mask is accumulated with `1 << q` on the
`int` constant `1`: listing qubit 31 sets bits 31 to 63 of `measureQubits` instead
of bit 31 alone, and listing qubit 32 is a shift by the width of `int`, which is
undefined. -/
theorem measure_mask_int_shift {P : Type} (H : Host P) (shots : Nat) (rng : List Nat) :
    accumulateMask 0 [31] = some (2 ^ 64 - 2 ^ 31) ∧ specMask 0 [31] = 2 ^ 31 ∧
      (forEach Host.example Layout.example (ExecState.init Nat)
          [.primitive 0 [1], .primitive 2 [31]]).toOption.map (fun s => s.measureQubits) =
        some 0xFFFFFFFF80000000 ∧
      accumulateMask 0 [32] = none ∧
      qivm_exec_bytecode H Layout.example
          [1, 0, 1, 1, 0, 0, 0, 0, 0, 0, 0, 1, 2, 1, 32, 0, 0, 0, 0, 0, 0, 0] shots rng =
        { trace := [.createQureg 1, .initZeroState (some 0)],
          outcome := .undefined .shiftTooWide } := by
  refine ⟨by decide, by decide, by decide, by decide, ?_⟩
  have hb : ByteCode Layout.example
      [1, 0, 1, 1, 0, 0, 0, 0, 0, 0, 0, 1, 2, 1, 32, 0, 0, 0, 0, 0, 0, 0] =
      .ok [.primitive 0 [1], .primitive 2 [32]] := rfl
  have hx : executeOnce H Layout.example [.primitive 0 [1], .primitive 2 [32]] =
      .error (.undefined .shiftTooWide, [.createQureg 1, .initZeroState (some 0)]) := rfl
  simp only [qivm_exec_bytecode, hb, hx]

/-- C19. In the sampling loop, for every probability map, every shot count and every
sequence of generator outputs, each index at which `states` is read is below
`states.size()`, whether the loop ends, is still drawing or runs into the overflow of
its counter; the loop tallies the elements read at those indices; and the index of a
shot is the first generator output, reduced modulo `2 ^ 16`, that is in range, the
outputs before it being dropped. -/
theorem sampling_index_in_range {P : Type} (H : Host P) (probs : List (Nat × P)) (shots : Nat)
    (rng : List Nat) (measurements : List (Nat × Nat)) :
    (∀ idx ∈ sampleReads (H.shuffle (buildStates H probs)).length shots 0 rng,
        idx < (H.shuffle (buildStates H probs)).length) ∧
      sampleShots (H.shuffle (buildStates H probs)) shots 0 rng measurements =
        (if (sampleReads (H.shuffle (buildStates H probs)).length shots 0 rng).length = shots ∧
            shots ≤ 2 ^ 31 - 1 then
          some (.ok ((sampleReads (H.shuffle (buildStates H probs)).length shots 0 rng).foldl
            (fun acc idx => mapUpdate (fun old => match old with
              | none => 1
              | some c => c + 1) acc ((H.shuffle (buildStates H probs)).getD idx 0)) measurements))
        else if (sampleReads (H.shuffle (buildStates H probs)).length shots 0 rng).length =
            2 ^ 31 then
          some (.error .counterOverflow)
        else none) ∧
      ∀ idx rng', drawIndex (H.shuffle (buildStates H probs)).length rng = some (idx, rng') →
        idx < (H.shuffle (buildStates H probs)).length ∧
          ∃ skipped r, rng = skipped ++ r :: rng' ∧ idx = r % 2 ^ 16 ∧
            ∀ x ∈ skipped, (H.shuffle (buildStates H probs)).length ≤ x % 2 ^ 16 := by
  refine ⟨sampleReads_lt _ shots 0 rng, ?_,
    fun _ _ h => ⟨(drawIndex_some h).1, drawIndex_spec h⟩⟩
  have h := sampleShots_eq_reads (H.shuffle (buildStates H probs)) shots 0 rng measurements
    (by omega)
  simp only [Nat.zero_add] at h
  exact h

theorem sampling_index_in_range_witness :
    sampleReads (Host.example.shuffle (buildStates Host.example [(0, 2), (3, 1)])).length 4 0
        [70000, 1, 65538, 9, 0, 2] = [1, 2, 0, 2] ∧
      drawIndex (Host.example.shuffle (buildStates Host.example [(0, 2), (3, 1)])).length
        [70000, 1, 65538, 9, 0, 2] = some (1, [65538, 9, 0, 2]) ∧
      (1 < (Host.example.shuffle (buildStates Host.example [(0, 2), (3, 1)])).length ∧
        ∃ skipped r, [70000, 1, 65538, 9, 0, 2] = skipped ++ r :: [65538, 9, 0, 2] ∧
          1 = r % 2 ^ 16 ∧
          ∀ x ∈ skipped,
            (Host.example.shuffle (buildStates Host.example [(0, 2), (3, 1)])).length ≤
              x % 2 ^ 16) :=
  ⟨by decide, by decide,
    (sampling_index_in_range Host.example [(0, 2), (3, 1)] 4 [70000, 1, 65538, 9, 0, 2] []).2.2
      1 [65538, 9, 0, 2] (by decide)⟩

/-- C11 (the code departs from it). A `Measure` that lists a qubit of index 32 or more is
executed: the driver has no test on the index, throws no exception and reports no error,
and the mask update `1 << q` on the `int` constant `1` is a shift by at least the width
of `int`, which is undefined. So the report of `Alloc 1; X q0; Measure [32]`, whose
`measure_mask` is `2 ^ 32`, and that of `Alloc 1; Measure [0]; Measure [40]`, here on the
example host, are bound by nothing. -/
theorem measure_of_wide_qubit_is_executed {P : Type} (H : Host P) (shots : Nat)
    (rng : List Nat) :
    measureMask 0 [.primitive 0 [1], .standard 2 [] [0], .primitive 2 [32]] = 2 ^ 32 ∧
      qivm_exec_bytecode H Layout.example
          [1, 0, 1, 1, 0, 0, 0, 0, 0, 0, 0, 2, 2, 0, 1, 0, 0, 0, 0,
            1, 2, 1, 32, 0, 0, 0, 0, 0, 0, 0] shots rng =
        { trace := [.createQureg 1, .initZeroState (some 0), .gate (some 0) (.pauliX 0)],
          outcome := .undefined .shiftTooWide } ∧
      qivm_exec_bytecode Host.example Layout.example
          [1, 0, 1, 1, 0, 0, 0, 0, 0, 0, 0, 1, 2, 1, 0, 0, 0, 0, 0, 0, 0, 0,
            1, 2, 1, 40, 0, 0, 0, 0, 0, 0, 0] shots rng =
        { trace := [.createQureg 1, .initZeroState (some 0)],
          outcome := .undefined .shiftTooWide } := by
  have hb1 : ByteCode Layout.example
      [1, 0, 1, 1, 0, 0, 0, 0, 0, 0, 0, 2, 2, 0, 1, 0, 0, 0, 0,
        1, 2, 1, 32, 0, 0, 0, 0, 0, 0, 0] =
      .ok [.primitive 0 [1], .standard 2 [] [0], .primitive 2 [32]] := rfl
  have hx1 : executeOnce H Layout.example
      [.primitive 0 [1], .standard 2 [] [0], .primitive 2 [32]] =
      .error (.undefined .shiftTooWide,
        [.createQureg 1, .initZeroState (some 0), .gate (some 0) (.pauliX 0)]) := rfl
  have hb2 : ByteCode Layout.example
      [1, 0, 1, 1, 0, 0, 0, 0, 0, 0, 0, 1, 2, 1, 0, 0, 0, 0, 0, 0, 0, 0,
        1, 2, 1, 40, 0, 0, 0, 0, 0, 0, 0] =
      .ok [.primitive 0 [1], .primitive 2 [0], .primitive 2 [40]] := rfl
  have hx2 : executeOnce Host.example Layout.example
      [.primitive 0 [1], .primitive 2 [0], .primitive 2 [40]] =
      .error (.undefined .shiftTooWide, [.createQureg 1, .initZeroState (some 0)]) := rfl
  refine ⟨by decide, ?_, ?_⟩
  · simp only [qivm_exec_bytecode, hb1, hx1]
  · simp only [qivm_exec_bytecode, hb2, hx2]

/-- C17 (the code departs from it). For a program `Alloc n; gates; Measure Q`,
`executeOnce` returns no map when `Q` lists a qubit of index 32 or more, `1 << q` on the
`int` constant `1` being undefined, as for `Alloc 1; Measure [32]`, whose mask `m` is
`2 ^ 32`; and none when the register has 31 qubits or more, `(int) pow(2, n)` being
outside the range of `int`, as for `Alloc 31; H q0; Measure [0]`. The driver tests
neither the index nor the size. -/
theorem single_measure_outside_int_range {P : Type} (H : Host P) :
    specMask 0 [32] = 2 ^ 32 ∧
      executeOnce H Layout.example [.primitive 0 [1], .primitive 2 [32]] =
        .error (.undefined .shiftTooWide, [.createQureg 1, .initZeroState (some 0)]) ∧
      executeOnce { Host.example with numQubitsRepresented := fun _ _ => 31 } Layout.example
          [.primitive 0 [31], .standard 1 [] [0], .primitive 2 [0]] =
        .error (.undefined .powOutOfRange,
          [.createQureg 31, .initZeroState (some 0), .gate (some 0) (.hadamard 0)]) :=
  ⟨by decide, rfl, rfl⟩

/-- C20. For every gate of the execution subset with the arity of the table,
`StandardGateInstruction::execute` issues exactly the kernel call of the dispatch
table, on the instruction's targets in order and with its parameter as angle; for
`CCX`, whose targets are passed through an `int` view of the vector, this is so when a
qubit address takes four bytes. -/
theorem dispatch_follows_table (L : Layout) (gate : Nat) (params targets : List Nat)
    (g : StandardGate) (numParams targetSize : Nat) (hid : L.gateOfId gate = some g)
    (har : specArity g = some (numParams, targetSize)) (hp : params.length = numParams)
    (ht : targets.length = targetSize) (hw : g = .CCX → L.addrWidth = 4) :
    ∃ calls, dispatchTable g params targets = some calls ∧
      execute L gate params targets = .ok calls :=
  execute_eq_dispatchTable L gate params targets g numParams targetSize hid har hp ht hw

theorem dispatch_follows_table_witness :
    ∃ calls, dispatchTable .CCX [] [0, 1, 2] = some calls ∧
      execute Layout.example 33 [] [0, 1, 2] = .ok calls :=
  dispatch_follows_table Layout.example 33 [] [0, 1, 2] .CCX 0 3 rfl rfl rfl rfl (fun _ => rfl)

/-- C21. Decoding distributes over concatenation: when the byte sequence `a` decodes
to the instructions `la` and `b` decodes to `lb`, the sequence `a ++ b` decodes to
`la ++ lb`. -/
theorem decode_distributes_over_append (L : Layout) (a b : List Byte)
    (la lb : List Instruction) (ha : ByteCode L a = .ok la) (hb : ByteCode L b = .ok lb) :
    ByteCode L (a ++ b) = .ok (la ++ lb) := by
  rw [ByteCode_append L a b ha, hb]

theorem decode_distributes_over_append_witness :
    ByteCode Layout.example [0, 1, 0, 1, 3, 0, 0, 0, 0, 0, 0, 0] =
        .ok [Instruction.primitive 0 [3]] ∧
      ByteCode Layout.example [2, 1, 0, 1, 0, 1, 0, 0] =
        .ok [Instruction.standard 1 [] [256]] ∧
      ByteCode Layout.example
          ([0, 1, 0, 1, 3, 0, 0, 0, 0, 0, 0, 0] ++ [2, 1, 0, 1, 0, 1, 0, 0]) =
        .ok ([Instruction.primitive 0 [3]] ++ [Instruction.standard 1 [] [256]]) :=
  ⟨rfl, rfl, decode_distributes_over_append Layout.example _ _ _ _ rfl rfl⟩

/-- C22 (as stated). On a bitset of `2 ^ 26` blocks with all 32 bits set, whose bit counts
sum to `2 ^ 31`, the `int` accumulator of `stateq_bits_count_ones` overflows: the function
does not return the sum. -/
theorem count_ones_overflows_int :
    (∀ block ∈ List.replicate (2 ^ 26) 0xFFFFFFFF, block < 2 ^ 32) ∧
      ((List.replicate (2 ^ 26) 0xFFFFFFFF).map bitCount).sum = 2 ^ 31 ∧
      stateq_bits_count_ones ⟨List.replicate (2 ^ 26) 0xFFFFFFFF⟩ = none := by
  have hb : bitCount 0xFFFFFFFF = 32 := by decide
  have hu : uint32_count_ones 0xFFFFFFFF = 32 := by decide
  refine ⟨fun block h => ?_, ?_, ?_⟩
  · rw [List.eq_of_mem_replicate h]
    norm_num
  · rw [sum_map_replicate, hb]
    norm_num
  · cases h : stateq_bits_count_ones ⟨List.replicate (2 ^ 26) 0xFFFFFFFF⟩ with
    | none => rfl
    | some r =>
      exfalso
      have h' : countOnesFrom (List.replicate (2 ^ 26) 0xFFFFFFFF) 0 0 = some r := h
      obtain ⟨h1, h2⟩ := countOnesFrom_some (List.replicate (2 ^ 26) 0xFFFFFFFF) 0 0 r h'
      rw [sum_map_replicate, hu] at h1
      have hne : List.replicate (2 ^ 26) 0xFFFFFFFF ≠ [] := by
        intro e
        have hl := congrArg List.length e
        rw [List.length_replicate, List.length_nil] at hl
        norm_num at hl
      have h3 := h2 hne
      norm_num at h1 h3
      omega

/-- C22. For every 32-bit value `v`, `uint32_count_ones v` is the number of bits set in
`v`, which is at most 32; and for every bitset of at most `2 ^ 31 - 1` blocks whose bit
counts sum to at most `2 ^ 31 - 1`, the largest `int`, `stateq_bits_count_ones` returns
that sum. -/
theorem count_ones_is_bit_count (v : Nat) (hv : v < 2 ^ 32) (bits : StateqBits)
    (hblocks : ∀ block ∈ bits.data, block < 2 ^ 32) (hsize : bits.data_size ≤ 2 ^ 31 - 1)
    (hsum : (bits.data.map bitCount).sum ≤ 2 ^ 31 - 1) :
    (uint32_count_ones v = bitCount v ∧ bitCount v ≤ 32) ∧
      stateq_bits_count_ones bits = some (bits.data.map bitCount).sum := by
  refine ⟨uint32_count_ones_eq v hv, ?_⟩
  have h := countOnesFrom_eq bits.data 0 0 (by simpa [StateqBits.data_size] using hsize)
    (by rw [map_uint32_count_ones _ hblocks]; omega)
  rw [map_uint32_count_ones _ hblocks, Nat.zero_add] at h
  exact h

theorem count_ones_is_bit_count_witness :
    (uint32_count_ones 0xF0F0F0F1 = bitCount 0xF0F0F0F1 ∧ bitCount 0xF0F0F0F1 ≤ 32) ∧
      stateq_bits_count_ones ⟨[6, 0, 0xFFFFFFFF]⟩ =
        some ([6, 0, 0xFFFFFFFF].map bitCount).sum :=
  count_ones_is_bit_count 0xF0F0F0F1 (by norm_num) ⟨[6, 0, 0xFFFFFFFF]⟩ (by decide)
    (by decide) (by decide)

/-- C23. With `exponent = 0` and `mod = 1` the loop of `mpowi` is not entered and the
function returns 1 for every base; `base ^ 0` modulo 1 is 0, the only value in `[0, 1)`. -/
theorem mpowi_exponent_zero_mod_one (base : Int) :
    mpowi base 0 1 = some 1 ∧ base ^ 0 % 1 = 0 ∧ mpowi base 0 1 ≠ some (base ^ 0 % 1) :=
  ⟨rfl, by simp, by simp [mpowi_exponent_zero]⟩

/-- C24. On the bitset of the two blocks `1, 1`, whose set bits are at the positions 0 and
32, `stateq_get_index_of_bits` with index 1 returns 32 and not 0: the iterator moves to
block 1 before its first read. On a bitset of one block, whatever its bits, that first
read is past the block. -/
theorem get_index_of_bits_skips_block_zero :
    stateq_bits_count_ones ⟨[1, 1]⟩ = some 2 ∧ setBitPositions ⟨[1, 1]⟩ = [0, 32] ∧
      stateq_get_index_of_bits ⟨[1, 1]⟩ 1 = some (.ok 32) ∧
      ∀ block, stateq_get_index_of_bits ⟨[block]⟩ 1 = some (.error .outOfBounds) :=
  ⟨by decide, by decide, rfl, fun _ => rfl⟩

/-- C25. On every bitset of one block, at the iterator that `stateq_bits_iterator`
returns, `stateq_bits_iterator_has_next_bit` returns true and
`stateq_bits_iterator_next_bit` then reads `data[1]`, past the only block. On the
bitset of the blocks `0, 1, 0` the first call of `stateq_bits_iterator_next` returns 32,
and the next call of `stateq_bits_iterator_has_next` reads `data[3]`. -/
theorem next_bit_reads_past_last_block (block : Nat) :
    stateq_bits_iterator_has_next_bit ⟨[block]⟩ stateq_bits_iterator = .ok true ∧
      stateq_bits_iterator_next_bit ⟨[block]⟩ stateq_bits_iterator = .error .outOfBounds ∧
      stateq_bits_iterator_next ⟨[0, 1, 0]⟩ stateq_bits_iterator =
        some (.ok (32, { block_offset := 1, bit_offset := 0, next := -1 })) ∧
      stateq_bits_iterator_has_next ⟨[0, 1, 0]⟩
          { block_offset := 1, bit_offset := 0, next := -1 } =
        some (.error .outOfBounds) :=
  ⟨rfl, rfl, rfl, rfl⟩

/-- C26. For `index == size` the test `index > list->size` of `get_entry_from_list` is
false and the function returns the address `&list->entries[size]`, one past the last
entry, not `NULL`; it returns `NULL` exactly for the indices above `size`. -/
theorem get_entry_from_list_at_size (size : Nat) :
    get_entry_from_list size size = some size ∧
      ∀ index, get_entry_from_list size index = none ↔ size < index := by
  refine ⟨by simp [get_entry_from_list], fun index => ?_⟩
  unfold get_entry_from_list
  split <;> simp <;> omega

end StateQ
